import Mathlib

/-!
# OMNIS front-end: the pipeline graph editor

A shallow embedding of `src/omnis_frontend/src/components/DiagramDragDrop.js`:
the graph model (`initialNodes`, `onDrop`, `handleSaveParameters`) and the
pipeline resolver (`getActivePipeline`).

Conventions of the embedding

* JavaScript strings are Lean strings, JavaScript arrays are lists.
* A plain object is the list of its own enumerable properties in the order
  `Object.entries` reports them (array-index keys ascending, then the other
  keys in creation order).
* A `Map` is the list of its entries in insertion order.
* The `while` loop of `getActivePipeline` may run for ever, so it is given
  fuel: `none` means that the fuel ran out before the loop condition failed.
* `getActivePipeline` is the call on nodes that carry `data`, without the
  bound on the length of an array; `getActivePipelineRaw` is the call with its
  two errors (`TypeError` on a node without `data`, `RangeError` on a full array).
-/

namespace OMNIS

/-! ## Values -/

/-- JavaScript values that occur as parameter values. -/
inductive JVal where
  | undefined
  | null
  | bool (b : Bool)
  | num (n : Int)
  | str (s : String)
  | arr (items : List JVal)
  | obj (entries : List (String × JVal))

/-- The value of `node.data.parameters`: missing (`undefined` or `null`), an
array (the catalog's parameter list, as written by `initialNodes` and
`onDrop`), or a plain object (the mapping written by the sidebar). -/
inductive Parameters where
  | absent
  | list (items : List JVal)
  | record (entries : List (String × JVal))

/-- Display coordinates of a node. -/
structure Position where
  x : Int
  y : Int
deriving DecidableEq, Repr

/-- The `data` field of a node. -/
structure NodeData where
  label : String
  parameters : Parameters

/-- A node of the graph, `{ id, type, data, position }`. -/
structure Node where
  id : String
  type : String
  data : NodeData
  position : Position

/-- An edge of the graph; only `source` and `target` are read. -/
structure Edge where
  source : String
  target : String
deriving DecidableEq, Repr

/-- An entry of the node catalog (`availableNodes`): `parameters` is `none`
when the entry has no such field. -/
structure CatalogEntry where
  name : String
  parameters : Option (List JVal)

/-- An element of the pipeline: `{ ...currentNode, index, data }`. -/
structure Step where
  id : String
  type : String
  data : NodeData
  position : Position
  index : Nat

/-! ## `isNaN` on strings

`isNaN(key)` converts the string with `StringToNumber`; the result is `NaN`
exactly when the string does not match `StringNumericLiteral`. -/

/-- The code points of `StrWhiteSpaceChar` (`WhiteSpace` and `LineTerminator`). -/
def isStrWhiteSpaceChar (c : Char) : Bool :=
  let n := c.toNat
  n == 0x09 || n == 0x0A || n == 0x0B || n == 0x0C || n == 0x0D || n == 0x20 ||
  n == 0xA0 || n == 0x1680 || (0x2000 ≤ n && n ≤ 0x200A) || n == 0x2028 ||
  n == 0x2029 || n == 0x202F || n == 0x205F || n == 0x3000 || n == 0xFEFF

/-- Strip `StrWhiteSpace` from both ends. -/
def trimStrWhiteSpace (cs : List Char) : List Char :=
  ((cs.dropWhile isStrWhiteSpaceChar).reverse.dropWhile isStrWhiteSpaceChar).reverse

/-- Grammar `DecimalDigits`: one or more of `0`..`9`. -/
def isDecimalDigits (cs : List Char) : Bool :=
  !cs.isEmpty && cs.all Char.isDigit

/-- Grammar `SignedInteger`. -/
def isSignedInteger : List Char → Bool
  | '+' :: rest => isDecimalDigits rest
  | '-' :: rest => isDecimalDigits rest
  | cs => isDecimalDigits cs

/-- An optional `ExponentPart` that reaches the end of the input. -/
def isOptExponentPart : List Char → Bool
  | [] => true
  | c :: rest => (c == 'e' || c == 'E') && isSignedInteger rest

/-- Grammar `StrUnsignedDecimalLiteral`. -/
def isStrUnsignedDecimalLiteral (cs : List Char) : Bool :=
  cs == ['I', 'n', 'f', 'i', 'n', 'i', 't', 'y'] ||
  (let intPart := cs.takeWhile Char.isDigit
   match cs.dropWhile Char.isDigit with
   | '.' :: rest =>
     (!intPart.isEmpty || !(rest.takeWhile Char.isDigit).isEmpty) &&
       isOptExponentPart (rest.dropWhile Char.isDigit)
   | rest => !intPart.isEmpty && isOptExponentPart rest)

/-- Grammar `StrDecimalLiteral`. -/
def isStrDecimalLiteral : List Char → Bool
  | '+' :: rest => isStrUnsignedDecimalLiteral rest
  | '-' :: rest => isStrUnsignedDecimalLiteral rest
  | cs => isStrUnsignedDecimalLiteral cs

/-- A hexadecimal digit. -/
def isHexDigit (c : Char) : Bool :=
  c.isDigit || ('a' ≤ c && c ≤ 'f') || ('A' ≤ c && c ≤ 'F')

/-- Grammar `NonDecimalIntegerLiteral` (no sign, no separators). -/
def isNonDecimalIntegerLiteral : List Char → Bool
  | '0' :: c :: rest =>
    !rest.isEmpty &&
      (((c == 'x' || c == 'X') && rest.all isHexDigit) ||
       ((c == 'o' || c == 'O') && rest.all (fun d => '0' ≤ d && d ≤ '7')) ||
       ((c == 'b' || c == 'B') && rest.all (fun d => d == '0' || d == '1')))
  | _ => false

/-- Grammar `StringNumericLiteral`: the strings `StringToNumber` maps to a
number other than `NaN` (the empty and the all-blank string map to `0`). -/
def isStringNumericLiteral (cs : List Char) : Bool :=
  let body := trimStrWhiteSpace cs
  body.isEmpty || isNonDecimalIntegerLiteral body || isStrDecimalLiteral body

/-- The global `isNaN` applied to a string. -/
def isNaN (key : String) : Bool :=
  !isStringNumericLiteral key.toList

/-! ## Objects and maps -/

/-- The value of a canonical array index: a decimal numeral without a
leading zero, below `2^32 - 1`. -/
def arrayIndex? (key : String) : Option Nat :=
  let cs := key.toList
  if isDecimalDigits cs && (cs == ['0'] || cs.head? != some '0') then
    let n := cs.foldl (fun acc c => 10 * acc + (c.toNat - '0'.toNat)) 0
    if n < 4294967295 then some n else none
  else none

/-- Where a new array-index key `i` goes: before the first property that is
not an array index or has a larger one. -/
def insertIndexKey (i : Nat) (key : String) (value : JVal) :
    List (String × JVal) → List (String × JVal)
  | [] => [(key, value)]
  | (k, v) :: rest =>
    match arrayIndex? k with
    | some j => if i < j then (key, value) :: (k, v) :: rest
                else (k, v) :: insertIndexKey i key value rest
    | none => (key, value) :: (k, v) :: rest

/-- Overwrite the value of an existing property, keeping its place. -/
def replaceValue (key : String) (value : JVal) :
    List (String × JVal) → List (String × JVal)
  | [] => []
  | (k, v) :: rest =>
    if k = key then (k, value) :: rest else (k, v) :: replaceValue key value rest

/-- The object `{ ...acc, [key]: value }`. -/
def objSet (acc : List (String × JVal)) (key : String) (value : JVal) :
    List (String × JVal) :=
  if acc.any (fun e => e.1 == key) then replaceValue key value acc
  else match arrayIndex? key with
    | some i => insertIndexKey i key value acc
    | none => acc ++ [(key, value)]

/-- The method `Map.prototype.set` on the entry list of a map. -/
def mapSet {β : Type} (m : List (String × β)) (key : String) (value : β) :
    List (String × β) :=
  match m with
  | [] => [(key, value)]
  | (k, v) :: rest =>
    if k = key then (k, value) :: rest else (k, v) :: mapSet rest key value

/-- The constructor `new Map(entries)`: the entries are set one by one. -/
def newMap {β : Type} (entries : List (String × β)) : List (String × β) :=
  entries.foldl (fun m e => mapSet m e.1 e.2) []

/-- The method `Map.prototype.get`; `none` is `undefined`. -/
def mapGet {β : Type} (m : List (String × β)) (key : String) : Option β :=
  match m with
  | [] => none
  | (k, v) :: rest => if k = key then some v else mapGet rest key

/-- The function `Object.entries` on `parameters || {}`. -/
def objectEntries : Parameters → List (String × JVal)
  | Parameters.absent => []
  | Parameters.list items => items.enum.map (fun p => (toString p.1, p.2))
  | Parameters.record entries => entries

/-! ## The graph model -/

/-- The seed node list. -/
def initialNodes : List Node :=
  [{ id := "1", type := "select_files",
     data := { label := "Select files",
               parameters := Parameters.list
                 [JVal.obj [("name", JVal.str "files"), ("label", JVal.str "Files"),
                            ("type", JVal.str "text")]] },
     position := { x := 250, y := 0 } }]

/-- The seed edge list. -/
def initialEdges : List Edge := []

/-- The handler `onDrop`: `nodes` is the node list the handler was created
with, `nodeType` the dragged type and `position` the projected drop point; the
result is the updater passed to `setNodes`. -/
def onDrop (availableNodes : List CatalogEntry) (nodes : List Node) (nodeType : String)
    (position : Position) : List Node → List Node :=
  let nodeData := availableNodes.find? (fun node => node.name == nodeType)
  let newNode : Node :=
    { id := toString (nodes.length + 1),
      type := nodeType,
      position := position,
      data := { label := nodeType ++ " Node",
                parameters := match nodeData with
                  | some entry =>
                    (match entry.parameters with
                     | some ps => Parameters.list ps
                     | none => Parameters.absent)
                  | none => Parameters.list [] } }
  fun nds => nds ++ [newNode]

/-- The updater of `handleSaveParameters`. -/
def handleSaveParameters (nodeId : String) (parameters : Parameters) (nds : List Node) :
    List Node :=
  nds.map (fun node =>
    if node.id = nodeId then { node with data := { node.data with parameters := parameters } }
    else node)

/-! ## The pipeline resolver -/

/-- The map `nodeMap` from node id to node. -/
def nodeMap (nodes : List Node) : List (String × Node) :=
  newMap (nodes.map (fun node => (node.id, node)))

/-- The map `edgeMap` from edge source to edge target. -/
def edgeMap (edges : List Edge) : List (String × String) :=
  newMap (edges.map (fun edge => (edge.source, edge.target)))

/-- The object `filteredParameters`: the `reduce` over the entries. -/
def filteredParameters (parameters : Parameters) : List (String × JVal) :=
  (objectEntries parameters).foldl
    (fun acc e => if !isNaN e.1 then acc else objSet acc e.1 e.2) []

/-- The step pushed for `currentNode` when the counter is `nodeIndex`. -/
def mkStep (currentNode : Node) (nodeIndex : Nat) : Step :=
  { id := currentNode.id, type := currentNode.type, position := currentNode.position,
    index := nodeIndex,
    data := { currentNode.data with
              parameters := Parameters.record (filteredParameters currentNode.data.parameters) } }

/-- The variables of the loop. -/
structure LoopState where
  currentNode : Option Node
  nodeIndex : Nat
  pipeline : List Step

/-- The node the loop moves to from `currentNode`:
`nodeMap.get(edgeMap.get(currentNode.id))`. -/
def nextNode (nodes : List Node) (edges : List Edge) (currentNode : Node) : Option Node :=
  match mapGet (edgeMap edges) currentNode.id with
  | some nextNodeId => mapGet (nodeMap nodes) nextNodeId
  | none => none

/-- One pass through the body of the `while` loop. The bound on the length of
`pipeline` is left out here (a traversal without a cycle pushes at most one
step per node); `whileLoopRaw` has it. -/
def loopBody (nodes : List Node) (edges : List Edge) (currentNode : Node) (st : LoopState) :
    LoopState :=
  { pipeline := st.pipeline ++ [mkStep currentNode st.nodeIndex],
    currentNode := nextNode nodes edges currentNode,
    nodeIndex := st.nodeIndex + 1 }

/-- The state on entry to the loop. -/
def initState (nodes : List Node) : LoopState :=
  { pipeline := [], currentNode := mapGet (nodeMap nodes) "1", nodeIndex := 1 }

/-- The `while (currentNode)` loop with fuel: `none` when the fuel runs out
while `currentNode` is still set. -/
def whileLoop (nodes : List Node) (edges : List Edge) : Nat → LoopState → Option (List Step)
  | fuel, st =>
    match st.currentNode with
    | none => some st.pipeline
    | some currentNode =>
      match fuel with
      | 0 => none
      | fuel + 1 => whileLoop nodes edges fuel (loopBody nodes edges currentNode st)

/-- The function `getActivePipeline` with a bound on the number of loop passes. -/
def getActivePipeline (fuel : Nat) (nodes : List Node) (edges : List Edge) :
    Option (List Step) :=
  whileLoop nodes edges fuel (initState nodes)

/-- The call returns `r`: some number of passes is enough. -/
def Returns (nodes : List Node) (edges : List Edge) (r : List Step) : Prop :=
  ∃ fuel, getActivePipeline fuel nodes edges = some r

/-- One evaluation of the loop condition followed, when it holds, by the
body; a state whose `currentNode` is unset is left as it is. -/
def loopStep (nodes : List Node) (edges : List Edge) (st : LoopState) : LoopState :=
  match st.currentNode with
  | none => st
  | some currentNode => loopBody nodes edges currentNode st

/-- The loop state after `n` passes (it stays put once the loop has exited). -/
def stateAfter (nodes : List Node) (edges : List Edge) (n : Nat) : LoopState :=
  (loopStep nodes edges)^[n] (initState nodes)

/-- The keys of a parameters value, as `Object.keys(parameters || {})` lists them. -/
def paramKeys (parameters : Parameters) : List String :=
  (objectEntries parameters).map Prod.fst

/-- The value stored under `key`, `none` when there is no such property. -/
def paramGet (parameters : Parameters) (key : String) : Option JVal :=
  mapGet (objectEntries parameters) key

/-- The object written as a literal `{ k1: v1, k2: v2, ... }`: its properties
are defined from left to right. -/
def objLiteral (props : List (String × JVal)) : List (String × JVal) :=
  props.foldl (fun acc e => objSet acc e.1 e.2) []


/-! ## Auxiliary definitions for the statements -/

/-- The steps of the nodes of a path, numbered from `i`. -/
def stepsFrom (i : Nat) : List Node → List Step
  | [] => []
  | n :: rest => mkStep n i :: stepsFrom (i + 1) rest


/-! ## Sample graphs -/

/-- A node with the given id and parameters, as `onDrop` lays nodes out. -/
def sampleNode (id : String) (parameters : Parameters) : Node :=
  { id := id, type := "step", position := { x := 0, y := 0 },
    data := { label := "step Node", parameters := parameters } }

/-- Three nodes, with ids "1", "2" and "3". -/
def chainNodes : List Node :=
  [sampleNode "1" (Parameters.list []), sampleNode "2" (Parameters.list []),
   sampleNode "3" Parameters.absent]

/-- The edges "1" to "2" and "2" to "3". -/
def chainEdges : List Edge := [Edge.mk "1" "2", Edge.mk "2" "3"]

/-- Two edges leaving "1": first to "2", then to "3". -/
def forkEdges : List Edge := [Edge.mk "1" "2", Edge.mk "1" "3"]

/-- The edge from "1" to itself. -/
def selfLoopEdges : List Edge := [Edge.mk "1" "1"]

/-- An edge from "1" to an id that no node has. -/
def danglingEdges : List Edge := [Edge.mk "1" "7"]

/-- The mapping `{"files": ["a","b"], "0": "x", "1": "y"}`. -/
def filesParameters : Parameters :=
  Parameters.record (objLiteral
    [("files", JVal.arr [JVal.str "a", JVal.str "b"]), ("0", JVal.str "x"),
     ("1", JVal.str "y")])

/-- The mapping `{"": "x", "name": "y"}`, with a property whose key is the empty string. -/
def emptyKeyParameters : Parameters :=
  Parameters.record (objLiteral [("", JVal.str "x"), ("name", JVal.str "y")])

/-! ## The editor state

The state of the `DiagramDragDrop` component and its event handlers as state
transformers. -/

/-- The state hooks of `DiagramDragDrop` that the handlers read or write. -/
structure EditorState where
  nodes : List Node
  edges : List Edge
  availableNodes : List CatalogEntry
  selectedNode : Option Node
  pipelineName : String

/-- The state of the component when it is mounted. -/
def initialState : EditorState :=
  { nodes := initialNodes, edges := initialEdges, availableNodes := [],
    selectedNode := none, pipelineName := "" }

/-- The effect that stores the fetched catalog: `setAvailableNodes(data.functions)`. -/
def EditorState.setAvailableNodes (st : EditorState) (functions : List CatalogEntry) :
    EditorState :=
  { st with availableNodes := functions }

/-- A drop event: the handler built from the rendered state runs its updater
on the node list. -/
def EditorState.onDrop (st : EditorState) (nodeType : String) (position : Position) :
    EditorState :=
  { st with nodes := OMNIS.onDrop st.availableNodes st.nodes nodeType position st.nodes }

/-- The sidebar saving parameters: `handleSaveParameters(nodeId, parameters)`. -/
def EditorState.handleSaveParameters (st : EditorState) (nodeId : String)
    (parameters : Parameters) : EditorState :=
  { st with nodes := OMNIS.handleSaveParameters nodeId parameters st.nodes }

/-- A connect event: `setEdges((eds) => addEdge(params, eds))`, where `addEdge`
is the function of the graph library. -/
def EditorState.onConnect (addEdge : Edge → List Edge → List Edge) (st : EditorState)
    (params : Edge) : EditorState :=
  { st with edges := addEdge params st.edges }

/-- A click on a node: `setSelectedNode(node)`. -/
def EditorState.onNodeClick (st : EditorState) (node : Node) : EditorState :=
  { st with selectedNode := some node }

/-- Typing in the name field: `setPipelineName(e.target.value)`. -/
def EditorState.setPipelineName (st : EditorState) (value : String) : EditorState :=
  { st with pipelineName := value }

/-- The function `getActivePipeline` of the component in state `st`. -/
def EditorState.getActivePipeline (fuel : Nat) (st : EditorState) : Option (List Step) :=
  OMNIS.getActivePipeline fuel st.nodes st.edges

/-- The states the editor can be in: the mounted state followed by any
sequence of catalog loads, drops, parameter saves, connections, node clicks
and name edits. -/
inductive Reachable (addEdge : Edge → List Edge → List Edge) : EditorState → Prop
  | mount : Reachable addEdge initialState
  | setAvailableNodes (st : EditorState) (functions : List CatalogEntry) :
      Reachable addEdge st → Reachable addEdge (st.setAvailableNodes functions)
  | onDrop (st : EditorState) (nodeType : String) (position : Position) :
      Reachable addEdge st → Reachable addEdge (st.onDrop nodeType position)
  | handleSaveParameters (st : EditorState) (nodeId : String) (parameters : Parameters) :
      Reachable addEdge st → Reachable addEdge (st.handleSaveParameters nodeId parameters)
  | onConnect (st : EditorState) (params : Edge) :
      Reachable addEdge st → Reachable addEdge (EditorState.onConnect addEdge st params)
  | onNodeClick (st : EditorState) (node : Node) :
      Reachable addEdge st → Reachable addEdge (st.onNodeClick node)
  | setPipelineName (st : EditorState) (value : String) :
      Reachable addEdge st → Reachable addEdge (st.setPipelineName value)

/-! ## Submitting the pipeline -/

/-- The arguments of `api.post(url, data)`. -/
structure PostRequest where
  url : String
  data : JVal

/-- Property access `value[key]` on an object; `none` is `undefined`. -/
def JVal.getProp : JVal → String → Option JVal
  | JVal.obj entries, key => mapGet entries key
  | _, _ => none

/-- The handler `handleSavePipeline`, up to the call of `api.post`:
`stringify pipeline (some name)` stands for
`JSON.stringify({ pipeline: activePipeline, name: pipelineName })`. The result
is `none` when `getActivePipeline` does not return within the fuel. -/
def handleSavePipeline (stringify : List Step → Option String → String) (fuel : Nat)
    (progressive_id : String) (st : EditorState) : Option PostRequest :=
  match st.getActivePipeline fuel with
  | none => none
  | some activePipeline =>
    some { url := "/api/project/" ++ progressive_id ++ "/pipeline",
           data := JVal.obj
             [("body", JVal.str (stringify activePipeline (some st.pipelineName)))] }

/-- The handler `handleRunPipeline`, up to the call of `api.post`:
`stringify pipeline none` stands for `JSON.stringify({ pipeline: activePipeline })`. -/
def handleRunPipeline (stringify : List Step → Option String → String) (fuel : Nat)
    (progressive_id : String) (st : EditorState) : Option PostRequest :=
  match st.getActivePipeline fuel with
  | none => none
  | some activePipeline =>
    some { url := "/api/project/" ++ progressive_id ++ "/process_pipeline",
           data := JVal.obj [("body", JVal.str (stringify activePipeline none))] }

/-! ## Routes and route guards (`App.js`, `permissions/`) -/

/-- What a route element renders: a page component or `<Navigate to=... />`. -/
inductive View where
  | page (component : String)
  | navigate (target : String)
deriving DecidableEq, Repr

/-- How the `element` of a route wraps its component. -/
inductive Wrapper where
  | bare
  | protectedRoute
  | adminRoute
deriving DecidableEq, Repr

/-- A `<Route path=... element=... />` of `App`. -/
structure RouteDecl where
  path : String
  wrapper : Wrapper
  component : String
deriving DecidableEq, Repr

/-- The test `!!localStorage.getItem('access_token')`: the item exists and is
not the empty string. -/
def isAuthenticated (accessToken : Option String) : Bool :=
  match accessToken with
  | none => false
  | some token => token != ""

/-- The component `ProtectedRoute`. -/
def ProtectedRoute (accessToken : Option String) (component : String) : View :=
  if isAuthenticated accessToken then View.page component else View.navigate "/"

/-- The component `AdminRoute`; `role` is the role of the auth context. -/
def AdminRoute (role : Option String) (accessToken : Option String) (component : String) :
    View :=
  if !isAuthenticated accessToken then View.navigate "/"
  else if role != some "admin" then View.navigate "/"
  else View.page component

/-- The view a route element renders. -/
def RouteDecl.render (role : Option String) (accessToken : Option String) (r : RouteDecl) :
    View :=
  match r.wrapper with
  | Wrapper.bare => View.page r.component
  | Wrapper.protectedRoute => ProtectedRoute accessToken r.component
  | Wrapper.adminRoute => AdminRoute role accessToken r.component

/-- The routes declared in `App`, in order. -/
def appRoutes : List RouteDecl :=
  [ ⟨"/", Wrapper.bare, "LandingPage"⟩,
    ⟨"/user", Wrapper.protectedRoute, "MainPageUser"⟩,
    ⟨"/user/change-password", Wrapper.protectedRoute, "ChangePasswordPage"⟩,
    ⟨"/create-project", Wrapper.protectedRoute, "CreateProjectForm"⟩,
    ⟨"/admin", Wrapper.adminRoute, "AdminDashboard"⟩,
    ⟨"/admin/register-user", Wrapper.adminRoute, "RegisterUser"⟩,
    ⟨"/project/:progressive_id", Wrapper.protectedRoute, "ProjectPage"⟩,
    ⟨"/project/:progressive_id/members", Wrapper.protectedRoute, "HandleMembers"⟩,
    ⟨"/add-member/:progressive_id", Wrapper.protectedRoute, "AddMemberPage"⟩,
    ⟨"/project/:progressive_id/metabolomics/upload", Wrapper.protectedRoute,
      "BatchMetabolomicsUpload"⟩,
    ⟨"/project/:progressive_id/proteomics/upload", Wrapper.protectedRoute,
      "BatchProteomicsUpload"⟩,
    ⟨"/project/:progressive_id/diagram", Wrapper.protectedRoute, "DiagramDragDrop"⟩,
    ⟨"/project/:progressive_id/diagram/flow_cytometry", Wrapper.protectedRoute, "FC_Pipeline"⟩,
    ⟨"/project/:progressive_id/diagram/proteomics", Wrapper.protectedRoute,
      "ProteomicsPipeline"⟩,
    ⟨"/project/:progressive_id/diagram/metabolomics", Wrapper.protectedRoute,
      "Metabolomics_Pipeline"⟩,
    ⟨"/project/:progressive_id/diagram/PipelineBuilder", Wrapper.protectedRoute,
      "PipelineBuilder"⟩,
    ⟨"/project/:progressive_id/running_pipelines", Wrapper.protectedRoute,
      "PipelineRunDashboard"⟩,
    ⟨"/project/:progressive_id/metabolomics/running_pipelines", Wrapper.protectedRoute,
      "PipelineRunMetabolomicsDashboard"⟩,
    ⟨"/project/:projectId/report/:pipelineId", Wrapper.bare, "ReportFCS"⟩,
    ⟨"/project/:progressive_id/pipelines", Wrapper.protectedRoute, "HandlePipeline"⟩,
    ⟨"/project/:progressive_id/flow_cytometry/upload", Wrapper.protectedRoute,
      "FlowCytometryFormPage"⟩,
    ⟨"/project/:progressive_id/flow_cytometry/upload_batch", Wrapper.protectedRoute,
      "FlowCytometryBatchFormPage"⟩,
    ⟨"/project/:projectId/fcs_object/:progressiveId/gating_strategies/:gatingStrategyId/gating_elements",
      Wrapper.protectedRoute, "GatingFlowCytometry"⟩,
    ⟨"/project/:projectId/fcs_object/:progressiveId/gatingStrategy/new",
      Wrapper.protectedRoute, "GatingStrategyFormPage"⟩,
    ⟨"/project/:projectId/fcs_object/:progressiveId/gatingStrategies",
      Wrapper.protectedRoute, "GatingStrategyDashboardPage"⟩,
    ⟨"/project/:projectId/fcs_object/:progressiveId/gatingStrategy/edit/:gatingStrategyId",
      Wrapper.protectedRoute, "GatingStrategyFormPage"⟩,
    ⟨"/project/:projectId/transcriptomics/upload", Wrapper.protectedRoute, "UploadPage"⟩,
    ⟨"/project/:projectId/radiomics/upload", Wrapper.protectedRoute, "RadiomicsFormPage"⟩,
    ⟨"/project/:projectId/metabolomics/pipeline/:pipelineId/report", Wrapper.protectedRoute,
      "ReportMetabolomicsPipeline"⟩,
    ⟨"/project/:projectId/proteomics/pipelines", Wrapper.protectedRoute,
      "ProteomicsPipelineResultsDashboard"⟩,
    ⟨"/project/:projectId/standardized-fields", Wrapper.protectedRoute, "StandardizedFields"⟩ ]


/-! ## The call on node objects, with its errors

`getActivePipeline` reads `currentNode.data.parameters`, which throws a
`TypeError` when `data` is `undefined`, and `pipeline.push` throws a
`RangeError` when the array already has `2^32 - 1` elements. The definitions
below model the call with both errors, on node objects whose `data` may be
missing. -/

/-- A node object whose `data` field may be missing. -/
structure RawNode where
  id : String
  type : String
  data : Option NodeData
  position : Position

/-- A node seen as a node object. -/
def Node.toRaw (n : Node) : RawNode :=
  { id := n.id, type := n.type, data := some n.data, position := n.position }

/-- The node of a node object that carries `data`. -/
def RawNode.toNode? (n : RawNode) : Option Node :=
  match n.data with
  | none => none
  | some d => some { id := n.id, type := n.type, data := d, position := n.position }

/-- The largest length of an array, `2^32 - 1`. -/
def maxArrayLength : Nat := 4294967295

/-- How a call ends: with a result, with a `TypeError` (a current node without
`data`), with a `RangeError` (push on a full array), or not within the fuel. -/
inductive Outcome where
  | returned (pipeline : List Step)
  | typeError
  | rangeError
  | running

/-- The variables of the loop over node objects. -/
structure RawLoopState where
  currentNode : Option RawNode
  nodeIndex : Nat
  pipeline : List Step

/-- The map `nodeMap` over node objects. -/
def rawNodeMap (nodes : List RawNode) : List (String × RawNode) :=
  newMap (nodes.map (fun node => (node.id, node)))

/-- The node object the loop moves to from `currentNode`:
`nodeMap.get(edgeMap.get(currentNode.id))`. -/
def rawNextNode (nodes : List RawNode) (edges : List Edge) (currentNode : RawNode) :
    Option RawNode :=
  match mapGet (edgeMap edges) currentNode.id with
  | some nextNodeId => mapGet (rawNodeMap nodes) nextNodeId
  | none => none

/-- The `while (currentNode)` loop over node objects: a pass first reads
`currentNode.data.parameters`, then pushes the step, then moves on. -/
def whileLoopRaw (nodes : List RawNode) (edges : List Edge) :
    Nat → RawLoopState → Outcome
  | fuel, st =>
    match st.currentNode with
    | none => Outcome.returned st.pipeline
    | some currentNode =>
      match fuel with
      | 0 => Outcome.running
      | fuel + 1 =>
        match currentNode.toNode? with
        | none => Outcome.typeError
        | some node =>
          if st.pipeline.length < maxArrayLength then
            whileLoopRaw nodes edges fuel
              { pipeline := st.pipeline ++ [mkStep node st.nodeIndex],
                currentNode := rawNextNode nodes edges currentNode,
                nodeIndex := st.nodeIndex + 1 }
          else Outcome.rangeError

/-- The loop variables seen as loop variables over node objects. -/
def LoopState.toRaw (st : LoopState) : RawLoopState :=
  { currentNode := st.currentNode.map Node.toRaw, nodeIndex := st.nodeIndex,
    pipeline := st.pipeline }

/-- The function `getActivePipeline` over node objects. -/
def getActivePipelineRaw (fuel : Nat) (nodes : List RawNode) (edges : List Edge) : Outcome :=
  whileLoopRaw nodes edges fuel
    { pipeline := [], currentNode := mapGet (rawNodeMap nodes) "1", nodeIndex := 1 }

/-- The chain of current node objects: the node with id "1", then each time
the successor of the one before; `none` from the point where there is none. It
does not depend on `data`. -/
def rawChain (nodes : List RawNode) (edges : List Edge) : Nat → Option RawNode
  | 0 => mapGet (rawNodeMap nodes) "1"
  | k + 1 => (rawChain nodes edges k).bind (rawNextNode nodes edges)

/-! ## Standardized fields (`services/starndardized_api.js`) -/

/-- The fields of a rejected request that the `catch` block reads:
`error.response?.status`, `error.response?.data?.error` and `error.message`. -/
structure ApiError where
  status : Option Nat
  dataError : Option String
  message : String

/-- The outcome of `await authApi.get(url)`: a response with its `data`
(`none` when it is missing or `null`), or a rejection. -/
inductive ApiResponse where
  | resolved (data : Option (List JVal))
  | rejected (error : ApiError)

/-- The object `getProjectStandardizedFields` returns. -/
structure FieldsResult where
  project_id : String
  standardized_fields : List JVal
  total_count : Nat
  success : Bool
  message : Option String

/-- The url requested by `getProjectStandardizedFields`. -/
def standardizedFieldsUrl (projectId : String) (fieldType : Option String) : String :=
  match fieldType with
  | some t =>
    if t != "" then "/api/projects/" ++ projectId ++ "/standardized-fields?field_type=" ++ t
    else "/api/projects/" ++ projectId ++ "/standardized-fields"
  | none => "/api/projects/" ++ projectId ++ "/standardized-fields"

/-- The function `getProjectStandardizedFields`; `authApiGet` is the request
`authApi.get`, and `Except.error msg` is `throw new Error(msg)`. -/
def getProjectStandardizedFields (authApiGet : String → ApiResponse) (projectId : String)
    (fieldType : Option String) : Except String FieldsResult :=
  match authApiGet (standardizedFieldsUrl projectId fieldType) with
  | ApiResponse.resolved data =>
    let standardizedFields := data.getD []
    Except.ok
      { project_id := projectId, standardized_fields := standardizedFields,
        total_count := standardizedFields.length, success := true, message := none }
  | ApiResponse.rejected error =>
    if error.status = some 404 ∨ error.status = some 400 then
      Except.ok
        { project_id := projectId, standardized_fields := [], total_count := 0,
          success := true, message := some "No standardized fields found for this project" }
    else
      Except.error ("Error getting project standardized fields: " ++
        (match error.dataError with
         | some e => if e != "" then e else error.message
         | none => error.message))


/-! ## Sample catalog and states -/

/-- A catalog with two entries named "normalize" (the first one counts) and
one entry without a `parameters` field. -/
def sampleCatalog : List CatalogEntry :=
  [ { name := "filter", parameters := none },
    { name := "normalize", parameters := some [JVal.obj [("name", JVal.str "method")]] },
    { name := "normalize", parameters := some [] } ]

/-- The mounted state after the catalog has loaded and a "normalize" node
has been dropped. -/
def sampleState : EditorState :=
  (initialState.setAvailableNodes sampleCatalog).onDrop "normalize" { x := 10, y := 20 }


/-! ## The parameter sidebar (`NodeSidebar.js`) -/

/-- The effect run when a node is selected:
`setParameters(selectedNode.data.parameters || {})`. -/
def sidebarLoad (selectedNode : Node) : Parameters :=
  match selectedNode.data.parameters with
  | Parameters.absent => Parameters.record []
  | p => p

/-- The handler `handleChange`: `setParameters((prev) => ({ ...prev, [name]: value }))`.
Spreading an array copies its elements under their indices. -/
def handleChange (prev : Parameters) (name : String) (value : JVal) : Parameters :=
  Parameters.record (objSet (objectEntries prev) name value)

/-- The handler `handleSave` of the sidebar in the editor:
`onSave(selectedNode.id, parameters)` with `onSave = handleSaveParameters`. -/
def handleSave (st : EditorState) (selectedNode : Node) (parameters : Parameters) :
    EditorState :=
  st.handleSaveParameters selectedNode.id parameters

/-- A form control of the panel, with the props taken from the parameter
entry (`undefined` when the entry has no such property). The `value` prop is
left out: it is a property read on the sidebar state and cannot throw. -/
structure RenderedField where
  name : Option JVal
  label : Option JVal
  type : Option JVal

/-- The callback of `.map((param) => <TextField ... />)`: reading a property
of `undefined` or `null` throws. -/
def renderTextField (param : JVal) : Except String RenderedField :=
  match param with
  | JVal.undefined => Except.error "TypeError: cannot read properties of undefined"
  | JVal.null => Except.error "TypeError: cannot read properties of null"
  | p => Except.ok { name := p.getProp "name", label := p.getProp "label",
                     type := p.getProp "type" }

/-- The function `renderParameters`: the file selector for the node labelled
"Select files", otherwise `(selectedNode.data.parameters || []).map(...)`,
which throws when the parameters are a plain object. -/
def renderParameters (selectedNode : Node) : Except String (List RenderedField) :=
  if selectedNode.data.label = "Select files" then
    Except.ok [{ name := some (JVal.str "files"), label := some (JVal.str "Files"),
                 type := none }]
  else
    match selectedNode.data.parameters with
    | Parameters.absent => Except.ok []
    | Parameters.list items => items.mapM renderTextField
    | Parameters.record _ =>
      Except.error "TypeError: selectedNode.data.parameters.map is not a function"

/-! ## The auth context (`utils/AuthContext.js`) -/

/-- The initial role of `AuthProvider`: `localStorage.getItem('role') || null`. -/
def initialRole (storedRole : Option String) : Option String :=
  match storedRole with
  | some r => if r != "" then some r else none
  | none => none

/-! ## Navigation from the project page (`pages/ProjectPage.js`) -/

/-- The path `handleClick` navigates to ("Build Pipeline"). -/
def handleClick (project_field progressive_id : String) : String :=
  if project_field = "metabolomica" then
    "/project/" ++ progressive_id ++ "/diagram/metabolomics"
  else if project_field = "citofluorimetria" then
    "/project/" ++ progressive_id ++ "/diagram/flow_cytometry"
  else if project_field = "proteomica" then
    "/project/" ++ progressive_id ++ "/diagram/proteomics"
  else "/project/" ++ progressive_id ++ "/diagram/unknown"

/-- The path `handleViewPipelineClick` navigates to ("Monitor Pipelines"). -/
def handleViewPipelineClick (project_field progressive_id : String) : String :=
  if project_field = "metabolomica" then
    "/project/" ++ progressive_id ++ "/metabolomics/running_pipelines"
  else if project_field = "citofluorimetria" then
    "/project/" ++ progressive_id ++ "/running_pipelines"
  else if project_field = "proteomica" then
    "/project/" ++ progressive_id ++ "/proteomics/running_pipelines"
  else "/project/" ++ progressive_id ++ "/running_pipelines_unknown"

/-- The pieces of a path between slashes. -/
def splitSlash : List Char → List (List Char)
  | [] => [[]]
  | c :: cs =>
    if c = '/' then [] :: splitSlash cs
    else match splitSlash cs with
      | [] => [[c]]
      | seg :: rest => (c :: seg) :: rest

/-- Drop the empty pieces at the end (trailing slashes). -/
def dropTrailingEmpty (pieces : List (List Char)) : List (List Char) :=
  (pieces.reverse.dropWhile List.isEmpty).reverse

/-- The segments of a route pattern: leading and trailing slashes are ignored. -/
def patternSegments (pattern : String) : List (List Char) :=
  dropTrailingEmpty ((splitSlash pattern.toList).dropWhile List.isEmpty)

/-- The segments of a location: it starts with one slash, trailing slashes
are ignored, and an empty segment in between is kept (it matches nothing).
The result is `none` when the location does not start with a slash. -/
def pathSegments (path : String) : Option (List (List Char)) :=
  match splitSlash path.toList with
  | [] :: rest => some (dropTrailingEmpty rest)
  | _ => none

/-- Segment-wise matching of the router: a segment of the pattern that starts
with a colon matches any non-empty segment, any other one matches the same
text, letter case ignored. (Every dynamic segment of `App` is a whole segment.) -/
def matchSegments : List (List Char) → List (List Char) → Bool
  | [], [] => true
  | p :: ps, s :: ss =>
    (if p.head? == some ':' then !s.isEmpty
      else p.map Char.toLower == s.map Char.toLower) && matchSegments ps ss
  | _, _ => false

/-- Whether a location matches the path pattern of a route. -/
def matchPath (pattern path : String) : Bool :=
  match pathSegments path with
  | some segments => matchSegments (patternSegments pattern) segments
  | none => false

/-! ## Token refresh (`utils/ApiProteomics.js`, `utils/ApiRadiomics.js`) -/

/-- The items of local storage the interceptors touch. -/
structure LocalStorage where
  access_token : Option String
  refresh_token : Option String
deriving DecidableEq, Repr

/-- What the response interceptor did with a failed request: the storage it
leaves, the page it sent the browser to (if any), and whether it returned the
retried request `api(originalRequest)` rather than `Promise.reject(error)`. -/
structure InterceptorResult where
  storage : LocalStorage
  redirect : Option String
  retried : Bool
deriving DecidableEq, Repr

/-- The error handler of the response interceptor of `ApiProteomics`; `status`
is `error.response.status`, `retry` is `originalRequest._retry`, and
`refreshPost key value` is the answer of the refresh request sent with the
body `{ key: value }`: the new access token, or `none` when it fails. -/
def proteomicsInterceptor (refreshPost : String → Option String → Option String)
    (status : Nat) (retry : Bool) (storage : LocalStorage) : InterceptorResult :=
  if status = 401 ∧ retry = false then
    match refreshPost "refresh_token" storage.refresh_token with
    | some accessToken =>
      { storage := { storage with access_token := some accessToken }, redirect := none,
        retried := true }
    | none =>
      { storage := { access_token := none, refresh_token := none }, redirect := some "/",
        retried := false }
  else { storage := storage, redirect := none, retried := false }

/-- The error handler of the response interceptor of `ApiRadiomics`. After
storing the new token, line 26 has no `=`: it calls
`api.defaults.headers.common['Authorization']` as a template tag; that value
is not a function, so the call throws and control passes to the `catch` block. -/
def radiomicsInterceptor (refreshPost : String → Option String → Option String)
    (status : Nat) (retry : Bool) (storage : LocalStorage) : InterceptorResult :=
  if status = 401 ∧ retry = false then
    match refreshPost "refreshToken" storage.refresh_token with
    | some accessToken =>
      let stored : LocalStorage := { storage with access_token := some accessToken }
      { storage := { stored with access_token := none, refresh_token := none },
        redirect := some "/", retried := false }
    | none =>
      { storage := { access_token := none, refresh_token := none }, redirect := some "/",
        retried := false }
  else { storage := storage, redirect := none, retried := false }

/-! ## The project list (`components/UserProjects.jsx`) -/

/-- A project of the list; `id` is `none` when the object has no `id`. -/
structure Project where
  id : Option Nat
  progressive_id : Nat
  name : String
deriving DecidableEq, Repr

/-- The handler `handleDelete` applied to the id the dialog passes
(`projectToDelete?.progressive_id`): the list shown afterwards. `deleted`
tells whether `api.delete` succeeded. -/
def handleDelete (projects : List Project) (projectId : Option Nat) (deleted : Bool) :
    List Project :=
  if deleted then projects.filter (fun project => project.id != projectId) else projects

/-- The call site of the dialog: `handleDelete(projectToDelete?.progressive_id)`. -/
def confirmDelete (projects : List Project) (projectToDelete : Option Project)
    (deleted : Bool) : List Project :=
  handleDelete projects (projectToDelete.map Project.progressive_id) deleted

/-! ## Sample data for the later claims -/

/-- Nodes with the ids "1" and "3", as left after node "2" has been removed. -/
def gapNodes : List Node :=
  [sampleNode "1" (Parameters.list []), sampleNode "3" (Parameters.list [])]

/-- The node "2" of the sample state, dropped from the "normalize" entry. -/
def droppedNode : Node :=
  { id := "2", type := "normalize", position := { x := 10, y := 20 },
    data := { label := "normalize Node",
              parameters := Parameters.list [JVal.obj [("name", JVal.str "method")]] } }

/-- The parameters the sidebar holds after the user has typed "zscore" in the
field "method" of the dropped node. -/
def editedParameters : Parameters :=
  handleChange (sidebarLoad droppedNode) "method" (JVal.str "zscore")

/-- Two projects whose `id` and `progressive_id` differ. -/
def sampleProjects : List Project :=
  [ { id := some 10, progressive_id := 1, name := "a" },
    { id := some 1, progressive_id := 2, name := "b" } ]

/-- A catalog entry whose parameters are named "", "Infinity", "1.5" and
"method". -/
def oddCatalog : List CatalogEntry :=
  [ { name := "scale",
      parameters := some
        [JVal.obj [("name", JVal.str "")], JVal.obj [("name", JVal.str "Infinity")],
         JVal.obj [("name", JVal.str "1.5")], JVal.obj [("name", JVal.str "method")]] } ]

/-- The node "2" that `onDrop` appends to the seed for the type "scale" of
that catalog. -/
def oddNode : Node :=
  { id := "2", type := "scale", position := { x := 10, y := 20 },
    data := { label := "scale Node",
              parameters := Parameters.list
                [JVal.obj [("name", JVal.str "")], JVal.obj [("name", JVal.str "Infinity")],
                 JVal.obj [("name", JVal.str "1.5")], JVal.obj [("name", JVal.str "method")]] } }

/-- The values the user types in the four fields of that node, in order. -/
def oddChanges : List (String × JVal) :=
  [("", JVal.str "a"), ("Infinity", JVal.str "b"), ("1.5", JVal.str "c"),
   ("method", JVal.str "zscore")]

/-- The sidebar state after the four values have been typed. -/
def oddParameters : Parameters :=
  oddChanges.foldl (fun s c => handleChange s c.1 c.2) (sidebarLoad oddNode)


/-! ## Lemmas on maps -/

theorem mapGet_mapSet {β : Type} (m : List (String × β)) (k k' : String) (v : β) :
    mapGet (mapSet m k v) k' = if k = k' then some v else mapGet m k' := by
  induction m with
  | nil => simp [mapSet, mapGet]
  | cons e rest ih =>
    obtain ⟨a, b⟩ := e
    by_cases h : a = k
    · subst h
      by_cases h' : a = k' <;> simp [mapSet, mapGet, h']
    · by_cases h' : a = k'
      · subst h'
        simp [mapSet, mapGet, h, Ne.symm h]
      · simp [mapSet, mapGet, h, h', ih]

theorem mapGet_foldl_of_not_mem {β : Type} (l : List (String × β)) (k : String)
    (h : ∀ e ∈ l, e.1 ≠ k) (m : List (String × β)) :
    mapGet (l.foldl (fun m e => mapSet m e.1 e.2) m) k = mapGet m k := by
  induction l generalizing m with
  | nil => rfl
  | cons e rest ih =>
    rw [List.foldl_cons, ih (fun x hx => h x (List.mem_cons_of_mem _ hx)), mapGet_mapSet,
      if_neg (h e (List.mem_cons_self _ _))]

/-- The last entry written for a key is the one `get` returns. -/
theorem mapGet_newMap_last {β : Type} (pre post : List (String × β)) (e : String × β)
    (h : ∀ x ∈ post, x.1 ≠ e.1) :
    mapGet (newMap (pre ++ e :: post)) e.1 = some e.2 := by
  unfold newMap
  rw [List.foldl_append, List.foldl_cons, mapGet_foldl_of_not_mem post e.1 h, mapGet_mapSet,
    if_pos rfl]

theorem mapGet_newMap_none {β : Type} (l : List (String × β)) (k : String)
    (h : ∀ e ∈ l, e.1 ≠ k) : mapGet (newMap l) k = none := by
  unfold newMap
  rw [mapGet_foldl_of_not_mem l k h]
  rfl

/-- A list with an element satisfying `p` splits at the last such element. -/
theorem exists_last_split {α : Type} (p : α → Prop) (l : List α) (h : ∃ x ∈ l, p x) :
    ∃ pre x post, l = pre ++ x :: post ∧ p x ∧ ∀ y ∈ post, ¬ p y := by
  induction l with
  | nil => simp at h
  | cons a rest ih =>
    by_cases hr : ∃ x ∈ rest, p x
    · obtain ⟨pre, x, post, hl, hx, hpost⟩ := ih hr
      exact ⟨a :: pre, x, post, by simp [hl], hx, hpost⟩
    · have ha : p a := by
        obtain ⟨x, hx, hpx⟩ := h
        rcases List.mem_cons.1 hx with rfl | hx'
        · exact hpx
        · exact absurd ⟨x, hx', hpx⟩ hr
      exact ⟨[], a, rest, rfl, ha, fun y hy hpy => hr ⟨y, hy, hpy⟩⟩

theorem mapGet_newMap_mem {β : Type} (l : List (String × β)) (k : String) (v : β)
    (h : mapGet (newMap l) k = some v) : (k, v) ∈ l := by
  by_cases hk : ∃ e ∈ l, e.1 = k
  · obtain ⟨pre, x, post, hl, hx, hpost⟩ := exists_last_split (fun e => e.1 = k) l hk
    subst hx
    rw [hl, mapGet_newMap_last pre post x hpost] at h
    rw [hl]
    have : x.2 = v := Option.some.inj h
    subst this
    simp
  · rw [mapGet_newMap_none l k (fun e he hek => hk ⟨e, he, hek⟩)] at h
    cases h

theorem mapGet_nodeMap_of_mem (nodes : List Node) (hnodup : (nodes.map Node.id).Nodup)
    (n : Node) (hn : n ∈ nodes) : mapGet (nodeMap nodes) n.id = some n := by
  obtain ⟨pre, post, rfl⟩ := List.append_of_mem hn
  have hpost : ∀ x ∈ post.map (fun node => (node.id, node)), x.1 ≠ (n.id, n).1 := by
    intro x hx
    obtain ⟨y, hy, rfl⟩ := List.mem_map.1 hx
    simp only [List.map_append, List.map_cons] at hnodup
    have h2 := (List.nodup_append.1 hnodup).2.1
    have h3 := (List.nodup_cons.1 h2).1
    intro hxy
    exact h3 (List.mem_map.2 ⟨y, hy, hxy⟩)
  have := mapGet_newMap_last (pre.map (fun node => (node.id, node)))
    (post.map (fun node => (node.id, node))) (n.id, n) hpost
  simpa [nodeMap] using this

theorem mapGet_nodeMap_none (nodes : List Node) (k : String) (h : ∀ n ∈ nodes, n.id ≠ k) :
    mapGet (nodeMap nodes) k = none := by
  apply mapGet_newMap_none
  intro e he
  obtain ⟨y, hy, rfl⟩ := List.mem_map.1 he
  exact h y hy

theorem mapGet_nodeMap_mem (nodes : List Node) (k : String) (n : Node)
    (h : mapGet (nodeMap nodes) k = some n) : n ∈ nodes ∧ n.id = k := by
  have := mapGet_newMap_mem _ k n h
  obtain ⟨y, hy, hyk⟩ := List.mem_map.1 this
  simp only [Prod.mk.injEq] at hyk
  obtain ⟨h1, h2⟩ := hyk
  subst h2
  exact ⟨hy, h1⟩

theorem mapGet_edgeMap_none (edges : List Edge) (k : String) (h : ∀ e ∈ edges, e.source ≠ k) :
    mapGet (edgeMap edges) k = none := by
  apply mapGet_newMap_none
  intro e he
  obtain ⟨y, hy, rfl⟩ := List.mem_map.1 he
  exact h y hy

/-- The successor of a source is the target of the last edge with that source. -/
theorem mapGet_edgeMap_last (pre post : List Edge) (e : Edge)
    (h : ∀ x ∈ post, x.source ≠ e.source) :
    mapGet (edgeMap (pre ++ e :: post)) e.source = some e.target := by
  have hpost : ∀ x ∈ post.map (fun edge => (edge.source, edge.target)),
      x.1 ≠ (e.source, e.target).1 := by
    intro x hx
    obtain ⟨y, hy, rfl⟩ := List.mem_map.1 hx
    exact h y hy
  have := mapGet_newMap_last (pre.map (fun edge => (edge.source, edge.target)))
    (post.map (fun edge => (edge.source, edge.target))) (e.source, e.target) hpost
  simpa [edgeMap] using this

/-! ## Lemmas on the loop -/

theorem loopStep_iterate_of_none (nodes : List Node) (edges : List Edge) (st : LoopState)
    (h : st.currentNode = none) (n : Nat) : (loopStep nodes edges)^[n] st = st := by
  induction n with
  | zero => rfl
  | succ n ih =>
    rw [Function.iterate_succ_apply]
    have : loopStep nodes edges st = st := by simp [loopStep, h]
    rw [this, ih]

/-- The fuelled loop returns the pipeline reached after `fuel` passes when the
loop condition fails there, and nothing otherwise. -/
theorem whileLoop_eq_iterate (nodes : List Node) (edges : List Edge) (fuel : Nat)
    (st : LoopState) :
    whileLoop nodes edges fuel st =
      match ((loopStep nodes edges)^[fuel] st).currentNode with
      | none => some ((loopStep nodes edges)^[fuel] st).pipeline
      | some _ => none := by
  induction fuel generalizing st with
  | zero =>
    unfold whileLoop
    cases h : st.currentNode <;> simp [h]
  | succ fuel ih =>
    unfold whileLoop
    cases h : st.currentNode with
    | none =>
      rw [loopStep_iterate_of_none nodes edges st h]
      simp [h]
    | some c =>
      simp only []
      rw [ih, Function.iterate_succ_apply]
      have : loopStep nodes edges st = loopBody nodes edges c st := by simp [loopStep, h]
      rw [this]

theorem getActivePipeline_eq_stateAfter (nodes : List Node) (edges : List Edge) (fuel : Nat) :
    getActivePipeline fuel nodes edges =
      match (stateAfter nodes edges fuel).currentNode with
      | none => some (stateAfter nodes edges fuel).pipeline
      | some _ => none :=
  whileLoop_eq_iterate nodes edges fuel (initState nodes)

theorem stateAfter_succ (nodes : List Node) (edges : List Edge) (n : Nat) :
    stateAfter nodes edges (n + 1) = loopStep nodes edges (stateAfter nodes edges n) := by
  unfold stateAfter
  rw [Function.iterate_succ_apply']

theorem stateAfter_of_none (nodes : List Node) (edges : List Edge) (n m : Nat)
    (h : (stateAfter nodes edges n).currentNode = none) :
    stateAfter nodes edges (n + m) = stateAfter nodes edges n := by
  unfold stateAfter
  rw [Nat.add_comm, Function.iterate_add_apply]
  exact loopStep_iterate_of_none nodes edges _ h m

/-- While the loop is running the counter is one more than the number of
passes made, and one step has been pushed per pass. -/
theorem stateAfter_running (nodes : List Node) (edges : List Edge) (n : Nat) (x : Node)
    (h : (stateAfter nodes edges n).currentNode = some x) :
    (stateAfter nodes edges n).nodeIndex = n + 1 ∧
      (stateAfter nodes edges n).pipeline.length = n := by
  induction n generalizing x with
  | zero => simp [stateAfter, initState]
  | succ n ih =>
    rw [stateAfter_succ] at h ⊢
    cases hc : (stateAfter nodes edges n).currentNode with
    | none =>
      simp [loopStep, hc] at h
    | some c =>
      obtain ⟨h1, h2⟩ := ih c hc
      simp [loopStep, hc, loopBody, h1, h2]

/-- The current node after a pass is the successor of the current node before it. -/
theorem stateAfter_succ_currentNode (nodes : List Node) (edges : List Edge) (n : Nat) :
    (stateAfter nodes edges (n + 1)).currentNode =
      (stateAfter nodes edges n).currentNode.bind (nextNode nodes edges) := by
  rw [stateAfter_succ]
  cases hc : (stateAfter nodes edges n).currentNode with
  | none => simp [loopStep, hc]
  | some c => simp [loopStep, hc, loopBody]

/-- A result does not depend on the fuel that produced it. -/
theorem getActivePipeline_fuel_irrelevant (nodes : List Node) (edges : List Edge)
    (f g : Nat) (r s : List Step) (hf : getActivePipeline f nodes edges = some r)
    (hg : getActivePipeline g nodes edges = some s) : r = s := by
  rw [getActivePipeline_eq_stateAfter] at hf hg
  cases hcf : (stateAfter nodes edges f).currentNode with
  | some c => simp [hcf] at hf
  | none =>
    cases hcg : (stateAfter nodes edges g).currentNode with
    | some c => simp [hcg] at hg
    | none =>
      simp only [hcf, hcg, Option.some.injEq] at hf hg
      rcases Nat.le_total f g with hle | hle
      · obtain ⟨d, rfl⟩ := Nat.exists_eq_add_of_le hle
        rw [stateAfter_of_none nodes edges f d hcf] at hg
        rw [← hf, ← hg]
      · obtain ⟨d, rfl⟩ := Nat.exists_eq_add_of_le hle
        rw [stateAfter_of_none nodes edges g d hcg] at hf
        rw [← hf, ← hg]

/-! ## Lemmas on paths -/

theorem stepsFrom_length (i : Nat) (path : List Node) :
    (stepsFrom i path).length = path.length := by
  induction path generalizing i with
  | nil => rfl
  | cons n rest ih => simp [stepsFrom, ih]

theorem stepsFrom_getElem? (i : Nat) (path : List Node) (k : Nat) :
    (stepsFrom i path)[k]? = (path[k]?).map (fun n => mkStep n (i + k)) := by
  induction path generalizing i k with
  | nil => simp [stepsFrom]
  | cons n rest ih =>
    cases k with
    | zero => simp [stepsFrom]
    | succ k =>
      simp only [stepsFrom, List.getElem?_cons_succ, ih]
      congr 1
      funext n
      congr 1
      omega

/-- The successor lookup returns the target of the last edge leaving `k`. -/
theorem mapGet_edgeMap_eq_getLast? (edges : List Edge) (k : String) :
    mapGet (edgeMap edges) k =
      ((edges.filter (fun e => e.source = k)).getLast?).map Edge.target := by
  by_cases hk : ∃ e ∈ edges, e.source = k
  · obtain ⟨pre, x, post, hl, hx, hpost⟩ := exists_last_split (fun e => e.source = k) edges hk
    subst hx
    have hfpost : post.filter (fun e => decide (e.source = x.source)) = [] := by
      rw [List.filter_eq_nil_iff]
      intro a ha
      simpa using hpost a ha
    rw [hl, mapGet_edgeMap_last pre post x hpost, List.filter_append, List.filter_cons]
    simp [hfpost]
  · have hnone : ∀ e ∈ edges, e.source ≠ k := fun e he hek => hk ⟨e, he, hek⟩
    have hf : edges.filter (fun e => decide (e.source = k)) = [] := by
      rw [List.filter_eq_nil_iff]
      intro a ha
      simpa using hnone a ha
    rw [mapGet_edgeMap_none edges k hnone, hf]
    rfl

/-- Running the loop along a path of successors that ends in a node without a
successor pushes the steps of the path and exits. -/
theorem whileLoop_path (nodes : List Node) (edges : List Edge) (path : List Node) :
    ∀ (n : Node) (st : LoopState), st.currentNode = some n →
      List.Chain (fun a b => nextNode nodes edges a = some b) n path →
      (∀ z ∈ (n :: path).getLast?, nextNode nodes edges z = none) →
      ∀ fuel, path.length + 1 ≤ fuel →
        whileLoop nodes edges fuel st = some (st.pipeline ++ stepsFrom st.nodeIndex (n :: path)) := by
  induction path with
  | nil =>
    intro n st hst _ hlast fuel hfuel
    obtain ⟨f, rfl⟩ : ∃ f, fuel = f + 1 := ⟨fuel - 1, by simp at hfuel; omega⟩
    have hn : nextNode nodes edges n = none := hlast n (by simp)
    unfold whileLoop
    simp only [hst]
    unfold whileLoop
    simp [loopBody, hn, stepsFrom]
  | cons m rest ih =>
    intro n st hst hchain hlast fuel hfuel
    obtain ⟨f, rfl⟩ : ∃ f, fuel = f + 1 := ⟨fuel - 1, by simp at hfuel; omega⟩
    rw [List.chain_cons] at hchain
    obtain ⟨hnm, hrest⟩ := hchain
    unfold whileLoop
    simp only [hst]
    have hlast' : ∀ z ∈ (m :: rest).getLast?, nextNode nodes edges z = none := by
      intro z hz
      apply hlast z
      rw [List.getLast?_cons_cons]
      exact hz
    rw [ih m (loopBody nodes edges n st) (by simp [loopBody, hnm]) hrest hlast' f
      (by simp at hfuel ⊢; omega)]
    simp [loopBody, stepsFrom]

theorem nextNode_of_single_edge (nodes : List Node) (edges : List Edge)
    (hids : (nodes.map Node.id).Nodup) (a b : Node) (hb : b ∈ nodes)
    (h : edges.filter (fun e => e.source = a.id) = [Edge.mk a.id b.id]) :
    nextNode nodes edges a = some b := by
  unfold nextNode
  rw [mapGet_edgeMap_eq_getLast?, h]
  simp [mapGet_nodeMap_of_mem nodes hids b hb]

theorem nextNode_of_no_edge (nodes : List Node) (edges : List Edge) (a : Node)
    (h : ∀ e ∈ edges, e.source ≠ a.id) : nextNode nodes edges a = none := by
  unfold nextNode
  rw [mapGet_edgeMap_none edges a.id h]

theorem chain_nextNode (nodes : List Node) (edges : List Edge)
    (hids : (nodes.map Node.id).Nodup) (rest : List Node) :
    ∀ n, (∀ x ∈ rest, x ∈ nodes) →
      List.Chain (fun a b => edges.filter (fun e => e.source = a.id) = [Edge.mk a.id b.id])
        n rest →
      List.Chain (fun a b => nextNode nodes edges a = some b) n rest := by
  induction rest with
  | nil => intro n _ _; exact List.Chain.nil
  | cons m rest ih =>
    intro n hmem hchain
    rw [List.chain_cons] at hchain ⊢
    exact ⟨nextNode_of_single_edge nodes edges hids n m (hmem m (List.mem_cons_self _ _))
        hchain.1,
      ih m (fun x hx => hmem x (List.mem_cons_of_mem _ hx)) hchain.2⟩


theorem stateAfter_pipeline_length_le (nodes : List Node) (edges : List Edge) (n : Nat) :
    (stateAfter nodes edges n).pipeline.length ≤ n := by
  induction n with
  | zero => simp [stateAfter, initState]
  | succ n ih =>
    rw [stateAfter_succ]
    cases hc : (stateAfter nodes edges n).currentNode with
    | none =>
      simp only [loopStep, hc]
      omega
    | some c =>
      simp only [loopStep, hc, loopBody, List.length_append, List.length_singleton]
      omega

theorem stateAfter_succ_pipeline (nodes : List Node) (edges : List Edge) (n : Nat) :
    (stateAfter nodes edges (n + 1)).pipeline =
      (stateAfter nodes edges n).pipeline ++
        ((stateAfter nodes edges n).currentNode.map (fun x => mkStep x (n + 1))).toList := by
  rw [stateAfter_succ]
  cases hc : (stateAfter nodes edges n).currentNode with
  | none => simp [loopStep, hc]
  | some c =>
    have := (stateAfter_running nodes edges n c hc).1
    simp [loopStep, hc, loopBody, this]

/-- Position `k` of the pipeline holds the step of the node that was current
after `k` passes. -/
theorem stateAfter_pipeline_getElem? (nodes : List Node) (edges : List Edge) (n k : Nat) :
    (stateAfter nodes edges n).pipeline[k]? =
      if k < n then (stateAfter nodes edges k).currentNode.map (fun x => mkStep x (k + 1))
      else none := by
  induction n with
  | zero => simp [stateAfter, initState]
  | succ n ih =>
    rw [stateAfter_succ_pipeline]
    have hlen := stateAfter_pipeline_length_le nodes edges n
    rcases Nat.lt_trichotomy k n with hk | hk | hk
    · have hkn : k < n + 1 := by omega
      rw [if_pos hkn]
      rw [if_pos hk] at ih
      cases hc : (stateAfter nodes edges k).currentNode with
      | none =>
        rw [hc] at ih
        simp only [Option.map_none'] at ih ⊢
        rw [List.getElem?_eq_none_iff] at ih ⊢
        have hstay : stateAfter nodes edges n = stateAfter nodes edges k := by
          obtain ⟨d, rfl⟩ := Nat.exists_eq_add_of_le (Nat.le_of_lt hk)
          exact stateAfter_of_none nodes edges k d hc
        rw [hstay, hc]
        simp only [Option.map_none', Option.toList_none, List.append_nil]
        rw [hstay] at ih
        exact ih
      | some c =>
        rw [hc] at ih
        simp only [Option.map_some'] at ih ⊢
        rw [List.getElem?_append_left, ih]
        by_contra hcon
        rw [List.getElem?_eq_none (by omega)] at ih
        cases ih
    · subst hk
      rw [if_pos (Nat.lt_succ_self k)]
      cases hc : (stateAfter nodes edges k).currentNode with
      | none =>
        simp only [Option.map_none', Option.toList_none, List.append_nil]
        exact List.getElem?_eq_none hlen
      | some c =>
        have hl := (stateAfter_running nodes edges k c hc).2
        simp only [Option.map_some', Option.toList_some]
        rw [List.getElem?_append_right (by omega), hl]
        simp
    · rw [if_neg (by omega)]
      apply List.getElem?_eq_none
      rw [List.length_append]
      have : (Option.map (fun x => mkStep x (n + 1))
          (stateAfter nodes edges n).currentNode).toList.length ≤ 1 := by
        cases (stateAfter nodes edges n).currentNode <;> simp
      omega

/-- In a returned pipeline, the step after the step of a node `x` is the step
of the successor of `x`, when there is one, and `x` is the last step otherwise. -/
theorem getActivePipeline_getElem?_succ (nodes : List Node) (edges : List Edge) (fuel : Nat)
    (r : List Step) (h : getActivePipeline fuel nodes edges = some r) (k : Nat) (s : Step)
    (hs : r[k]? = some s) :
    ∃ x, (stateAfter nodes edges k).currentNode = some x ∧ s = mkStep x (k + 1) ∧
      r[k + 1]? = (nextNode nodes edges x).map (fun y => mkStep y (k + 2)) := by
  rw [getActivePipeline_eq_stateAfter] at h
  cases hc : (stateAfter nodes edges fuel).currentNode with
  | some c => simp [hc] at h
  | none =>
    simp only [hc, Option.some.injEq] at h
    subst h
    rw [stateAfter_pipeline_getElem?] at hs
    by_cases hk : k < fuel
    · rw [if_pos hk] at hs
      cases hx : (stateAfter nodes edges k).currentNode with
      | none => simp [hx] at hs
      | some x =>
        simp only [hx, Option.map_some', Option.some.injEq] at hs
        refine ⟨x, rfl, hs.symm, ?_⟩
        rw [stateAfter_pipeline_getElem?]
        have hnext := stateAfter_succ_currentNode nodes edges k
        rw [hx, Option.some_bind] at hnext
        by_cases hk1 : k + 1 < fuel
        · rw [if_pos hk1, hnext]
        · have : k + 1 = fuel := by omega
          rw [if_neg hk1, ← hnext, this, hc]
          rfl
    · rw [if_neg hk] at hs
      cases hs

/-! ## Lemmas on `isNaN` and on objects -/

theorem isStrWhiteSpaceChar_of_isDigit (c : Char) (h : c.isDigit = true) :
    isStrWhiteSpaceChar c = false := by
  simp only [Char.isDigit, Bool.and_eq_true, decide_eq_true_eq] at h
  obtain ⟨h1, h2⟩ := h
  have h1' : 48 ≤ c.toNat := h1
  have h2' : c.toNat ≤ 57 := h2
  simp only [isStrWhiteSpaceChar, Bool.or_eq_false_iff, beq_eq_false_iff_ne, Bool.and_eq_false_iff]
  simp
  omega

theorem dropWhile_eq_self_of_head {α : Type} (p : α → Bool) (l : List α)
    (h : ∀ a ∈ l.head?, p a = false) : l.dropWhile p = l := by
  cases l with
  | nil => rfl
  | cons a t => simp [List.dropWhile_cons, h a (by simp)]

theorem trimStrWhiteSpace_of_digits (cs : List Char) (h : ∀ c ∈ cs, c.isDigit = true) :
    trimStrWhiteSpace cs = cs := by
  unfold trimStrWhiteSpace
  rw [dropWhile_eq_self_of_head _ cs, dropWhile_eq_self_of_head _ cs.reverse, List.reverse_reverse]
  · intro a ha
    exact isStrWhiteSpaceChar_of_isDigit a (h a (List.mem_reverse.1 (List.mem_of_mem_head? ha)))
  · intro a ha
    exact isStrWhiteSpaceChar_of_isDigit a (h a (List.mem_of_mem_head? ha))

theorem isStrUnsignedDecimalLiteral_of_digits (cs : List Char)
    (h : isDecimalDigits cs = true) : isStrUnsignedDecimalLiteral cs = true := by
  simp only [isDecimalDigits, Bool.and_eq_true, List.all_eq_true, Bool.not_eq_true',
    List.isEmpty_eq_false] at h
  obtain ⟨hne, hall⟩ := h
  have ht : cs.takeWhile Char.isDigit = cs := List.takeWhile_eq_self_iff.2 hall
  have hd : cs.dropWhile Char.isDigit = [] := List.dropWhile_eq_nil_iff.2 hall
  unfold isStrUnsignedDecimalLiteral
  simp only [ht, hd]
  cases cs with
  | nil => exact absurd rfl hne
  | cons c t => simp [isOptExponentPart]

theorem isStringNumericLiteral_of_digits (cs : List Char) (h : isDecimalDigits cs = true) :
    isStringNumericLiteral cs = true := by
  have h' := h
  simp only [isDecimalDigits, Bool.and_eq_true, List.all_eq_true, Bool.not_eq_true',
    List.isEmpty_eq_false] at h'
  obtain ⟨hne, hall⟩ := h'
  unfold isStringNumericLiteral
  simp only [trimStrWhiteSpace_of_digits cs hall]
  have hdec : isStrDecimalLiteral cs = true := by
    cases cs with
    | nil => exact absurd rfl hne
    | cons c t =>
      have hc : c.isDigit = true := hall c (List.mem_cons_self _ _)
      unfold isStrDecimalLiteral
      split
      · next rest heq =>
        rw [(List.cons.inj heq).1] at hc
        exact absurd hc (by decide)
      · next rest heq =>
        rw [(List.cons.inj heq).1] at hc
        exact absurd hc (by decide)
      · exact isStrUnsignedDecimalLiteral_of_digits _ h
  simp [hdec]

/-- A non-empty string of decimal digits is not `NaN`. -/
theorem isNaN_of_digits (k : String) (h : isDecimalDigits k.toList = true) : isNaN k = false := by
  have := isStringNumericLiteral_of_digits k.toList h
  simp only [String.toList] at this
  simp [isNaN, this]

theorem mem_replaceValue (key : String) (value : JVal) (acc : List (String × JVal))
    (e : String × JVal) (h : e ∈ replaceValue key value acc) : e.1 = key ∨ e ∈ acc := by
  induction acc with
  | nil => simp [replaceValue] at h
  | cons a rest ih =>
    obtain ⟨k, v⟩ := a
    unfold replaceValue at h
    split at h
    · rename_i hk
      rcases List.mem_cons.1 h with rfl | h'
      · exact Or.inl hk
      · exact Or.inr (List.mem_cons_of_mem _ h')
    · rcases List.mem_cons.1 h with rfl | h'
      · exact Or.inr (List.mem_cons_self _ _)
      · rcases ih h' with h1 | h1
        · exact Or.inl h1
        · exact Or.inr (List.mem_cons_of_mem _ h1)

theorem mem_insertIndexKey (i : Nat) (key : String) (value : JVal)
    (acc : List (String × JVal)) (e : String × JVal)
    (h : e ∈ insertIndexKey i key value acc) : e.1 = key ∨ e ∈ acc := by
  induction acc with
  | nil =>
    simp only [insertIndexKey, List.mem_singleton] at h
    exact Or.inl (by rw [h])
  | cons a rest ih =>
    obtain ⟨k, v⟩ := a
    unfold insertIndexKey at h
    split at h
    · split at h
      · rcases List.mem_cons.1 h with rfl | h'
        · exact Or.inl rfl
        · exact Or.inr h'
      · rcases List.mem_cons.1 h with rfl | h'
        · exact Or.inr (List.mem_cons_self _ _)
        · rcases ih h' with h1 | h1
          · exact Or.inl h1
          · exact Or.inr (List.mem_cons_of_mem _ h1)
    · rcases List.mem_cons.1 h with rfl | h'
      · exact Or.inl rfl
      · exact Or.inr h'

theorem mem_objSet (acc : List (String × JVal)) (key : String) (value : JVal)
    (e : String × JVal) (h : e ∈ objSet acc key value) : e.1 = key ∨ e ∈ acc := by
  unfold objSet at h
  split at h
  · exact mem_replaceValue key value acc e h
  · split at h
    · exact mem_insertIndexKey _ key value acc e h
    · rcases List.mem_append.1 h with h' | h'
      · exact Or.inr h'
      · simp only [List.mem_singleton] at h'
        exact Or.inl (by rw [h'])

theorem isNaN_of_mem_foldl (l acc : List (String × JVal))
    (hacc : ∀ e ∈ acc, isNaN e.1 = true) :
    ∀ e ∈ l.foldl (fun acc e => if !isNaN e.1 then acc else objSet acc e.1 e.2) acc,
      isNaN e.1 = true := by
  induction l generalizing acc with
  | nil => simpa using hacc
  | cons a rest ih =>
    rw [List.foldl_cons]
    apply ih
    intro e he
    by_cases hn : isNaN a.1 = true
    · simp only [hn, Bool.not_true, Bool.false_eq_true, if_false] at he
      rcases mem_objSet _ _ _ _ he with h1 | h1
      · rw [h1]; exact hn
      · exact hacc e h1
    · simp only [Bool.not_eq_true] at hn
      simp only [hn, Bool.not_false, if_true] at he
      exact hacc e he

/-- Every key of the filtered parameters is `NaN` as a number. -/
theorem isNaN_of_mem_filteredParameters (parameters : Parameters) (e : String × JVal)
    (h : e ∈ filteredParameters parameters) : isNaN e.1 = true :=
  isNaN_of_mem_foldl (objectEntries parameters) [] (by simp) e h

theorem arrayIndex?_of_isNaN (k : String) (h : isNaN k = true) : arrayIndex? k = none := by
  unfold arrayIndex?
  by_cases hd : isDecimalDigits k.toList = true
  · rw [isNaN_of_digits k hd] at h
    cases h
  · simp only [Bool.not_eq_true] at hd
    simp only [hd, Bool.false_and, Bool.false_eq_true, if_false]

theorem objSet_of_fresh (acc : List (String × JVal)) (k : String) (v : JVal)
    (hk : isNaN k = true) (hfresh : ∀ e ∈ acc, e.1 ≠ k) : objSet acc k v = acc ++ [(k, v)] := by
  unfold objSet
  have hany : acc.any (fun e => e.1 == k) = false := by
    rw [List.any_eq_false]
    intro e he
    simpa using hfresh e he
  simp [hany, arrayIndex?_of_isNaN k hk]

theorem foldl_eq_filter (l acc : List (String × JVal)) (hnodup : (l.map Prod.fst).Nodup)
    (hdisj : ∀ e ∈ l, ∀ a ∈ acc, a.1 ≠ e.1) :
    l.foldl (fun acc e => if !isNaN e.1 then acc else objSet acc e.1 e.2) acc =
      acc ++ l.filter (fun e => isNaN e.1) := by
  induction l generalizing acc with
  | nil => simp
  | cons a rest ih =>
    rw [List.map_cons, List.nodup_cons] at hnodup
    obtain ⟨ha, hrest⟩ := hnodup
    rw [List.foldl_cons]
    by_cases hn : isNaN a.1 = true
    · have hset : objSet acc a.1 a.2 = acc ++ [a] :=
        objSet_of_fresh acc a.1 a.2 hn (fun e he => hdisj a (List.mem_cons_self _ _) e he)
      simp only [hn, Bool.not_true, Bool.false_eq_true, if_false, hset]
      rw [ih _ hrest, List.filter_cons, if_pos hn, List.append_assoc]
      · rfl
      · intro e he x hx
        rcases List.mem_append.1 hx with hx' | hx'
        · exact hdisj e (List.mem_cons_of_mem _ he) x hx'
        · simp only [List.mem_singleton] at hx'
          subst hx'
          intro hxe
          exact ha (List.mem_map.2 ⟨e, he, hxe.symm⟩)
    · simp only [Bool.not_eq_true] at hn
      simp only [hn, Bool.not_false, if_true]
      rw [ih _ hrest (fun e he x hx => hdisj e (List.mem_cons_of_mem _ he) x hx),
        List.filter_cons]
      simp [hn]

/-- On an object (no key twice) the `reduce` keeps, in order and with their
values, exactly the entries whose key is `NaN` as a number. -/
theorem filteredParameters_eq_filter (parameters : Parameters)
    (hnodup : (paramKeys parameters).Nodup) :
    filteredParameters parameters = (objectEntries parameters).filter (fun e => isNaN e.1) := by
  unfold filteredParameters
  rw [foldl_eq_filter _ [] hnodup (by simp)]
  rfl

theorem exists_node_of_mem_pipeline (nodes : List Node) (edges : List Edge) (n : Nat)
    (s : Step) (hs : s ∈ (stateAfter nodes edges n).pipeline) :
    ∃ k x, (stateAfter nodes edges k).currentNode = some x ∧ s = mkStep x (k + 1) := by
  obtain ⟨k, hk⟩ := List.mem_iff_getElem?.1 hs
  rw [stateAfter_pipeline_getElem?] at hk
  by_cases hkn : k < n
  · rw [if_pos hkn] at hk
    cases hx : (stateAfter nodes edges k).currentNode with
    | none => simp [hx] at hk
    | some x =>
      simp only [hx, Option.map_some', Option.some.injEq] at hk
      exact ⟨k, x, hx, hk.symm⟩
  · rw [if_neg hkn] at hk
    cases hk

theorem nextNode_congr (nodes : List Node) (edges : List Edge) (x y : Node)
    (h : x.id = y.id) : nextNode nodes edges x = nextNode nodes edges y := by
  unfold nextNode
  rw [h]

theorem currentNode_shift (nodes : List Node) (edges : List Edge) (i j : Nat)
    (h : (stateAfter nodes edges (i + 1)).currentNode =
      (stateAfter nodes edges (j + 1)).currentNode) (m : Nat) :
    (stateAfter nodes edges (i + 1 + m)).currentNode =
      (stateAfter nodes edges (j + 1 + m)).currentNode := by
  induction m with
  | zero => exact h
  | succ m ih =>
    rw [← Nat.add_assoc, ← Nat.add_assoc, stateAfter_succ_currentNode,
      stateAfter_succ_currentNode, ih]

/-- Once the chain of current nodes comes back to an id it has had, the loop
condition never fails. -/
theorem currentNode_ne_none_of_revisit (nodes : List Node) (edges : List Edge) (i j : Nat)
    (x y : Node) (hij : i < j) (hx : (stateAfter nodes edges i).currentNode = some x)
    (hy : (stateAfter nodes edges j).currentNode = some y) (hid : x.id = y.id) (n : Nat) :
    (stateAfter nodes edges n).currentNode ≠ none := by
  have hstep : (stateAfter nodes edges (i + 1)).currentNode =
      (stateAfter nodes edges (j + 1)).currentNode := by
    rw [stateAfter_succ_currentNode, stateAfter_succ_currentNode, hx, hy, Option.some_bind,
      Option.some_bind, nextNode_congr nodes edges x y hid]
  induction n using Nat.strong_induction_on with
  | _ n ih =>
    by_cases hnj : n ≤ j
    · intro hnone
      obtain ⟨d, rfl⟩ := Nat.exists_eq_add_of_le hnj
      rw [stateAfter_of_none nodes edges n d hnone, hnone] at hy
      cases hy
    · obtain ⟨m, rfl⟩ : ∃ m, n = j + 1 + m := ⟨n - (j + 1), by omega⟩
      rw [← currentNode_shift nodes edges i j hstep m]
      exact ih (i + 1 + m) (by omega)

theorem mapGet_nodeMap_of_exists (nodes : List Node) (k : String)
    (h : ∃ n ∈ nodes, n.id = k) : ∃ n, mapGet (nodeMap nodes) k = some n := by
  obtain ⟨pre, x, post, hl, hx, hpost⟩ := exists_last_split (fun m => m.id = k) nodes h
  subst hx
  have hpost2 : ∀ y ∈ post.map (fun node => (node.id, node)), y.1 ≠ (x.id, x).1 := by
    intro y hy
    obtain ⟨z, hz, rfl⟩ := List.mem_map.1 hy
    exact hpost z hz
  have := mapGet_newMap_last (pre.map (fun node => (node.id, node)))
    (post.map (fun node => (node.id, node))) (x.id, x) hpost2
  refine ⟨x, ?_⟩
  rw [hl]
  simpa [nodeMap] using this


/-- Claim C1. On a node list with pairwise distinct ids, when following the
edges from node "1" visits the nodes of `path` in turn (each but the last with
exactly one outgoing edge, leading to the next one, and the last with none),
`getActivePipeline` returns as many steps as the path has nodes, and step
number `k + 1` is the node at position `k` of the path carrying index `k + 1`. -/
theorem getActivePipeline_chain (nodes : List Node) (edges : List Edge) (path : List Node)
    (hids : (nodes.map Node.id).Nodup)
    (hmem : ∀ n ∈ path, n ∈ nodes)
    (hstart : path.head?.map Node.id = some "1")
    (hedges : List.Chain'
      (fun a b => edges.filter (fun e => e.source = a.id) = [Edge.mk a.id b.id]) path)
    (hlast : ∀ z ∈ path.getLast?, ∀ e ∈ edges, e.source ≠ z.id) :
    ∃ r, (∀ fuel, path.length ≤ fuel → getActivePipeline fuel nodes edges = some r) ∧
      r.length = path.length ∧
      ∀ k n, path[k]? = some n → r[k]? = some (mkStep n (k + 1)) := by
  cases path with
  | nil => simp at hstart
  | cons n0 rest =>
    simp only [List.head?_cons, Option.map_some', Option.some.injEq] at hstart
    have hn0 : mapGet (nodeMap nodes) "1" = some n0 := by
      rw [← hstart]
      exact mapGet_nodeMap_of_mem nodes hids n0 (hmem n0 (List.mem_cons_self _ _))
    have hchain := chain_nextNode nodes edges hids rest n0
      (fun x hx => hmem x (List.mem_cons_of_mem _ hx)) hedges
    have hlast' : ∀ z ∈ (n0 :: rest).getLast?, nextNode nodes edges z = none :=
      fun z hz => nextNode_of_no_edge nodes edges z (hlast z hz)
    refine ⟨stepsFrom 1 (n0 :: rest), ?_, stepsFrom_length _ _, ?_⟩
    · intro fuel hfuel
      have := whileLoop_path nodes edges rest n0 (initState nodes) (by simp [initState, hn0])
        hchain hlast' fuel (by simpa using hfuel)
      simpa [getActivePipeline, initState] using this
    · intro k n hk
      rw [stepsFrom_getElem?, hk, Nat.add_comm]
      rfl
/-- Witness of claim C1: the chain "1", "2", "3". -/
theorem getActivePipeline_chain_witness :
    ∃ r, (∀ fuel, chainNodes.length ≤ fuel →
        getActivePipeline fuel chainNodes chainEdges = some r) ∧
      r.length = chainNodes.length ∧
      ∀ k n, chainNodes[k]? = some n → r[k]? = some (mkStep n (k + 1)) :=
  getActivePipeline_chain chainNodes chainEdges chainNodes (by decide) (fun _ h => h) rfl
    (by simp [chainNodes, chainEdges, sampleNode, List.filter])
    (by simp [chainNodes, chainEdges, sampleNode])

/-- Claim C2. When the edge list holds an edge from `a` to `b` and, later, an
edge from `a` to `c` with no edge from `a` after it, the successor lookup maps
`a` to `c` (for every source the lookup gives the target of the last edge with
that source); whenever the loop is at a node with id `a` it moves to the node with
id `c`; and in a returned pipeline the step after a step with id `a` is the
step of the node with id `c` (the pipeline ends there when no node has id `c`). -/
theorem getActivePipeline_last_edge_wins (nodes : List Node) (edges pre mid post : List Edge)
    (a b c : String)
    (hedges : edges = pre ++ Edge.mk a b :: (mid ++ Edge.mk a c :: post))
    (hpost : ∀ e ∈ post, e.source ≠ a) :
    mapGet (edgeMap edges) a = some c ∧
    (∀ k, mapGet (edgeMap edges) k =
      ((edges.filter (fun e => e.source = k)).getLast?).map Edge.target) ∧
    (∀ n x, (stateAfter nodes edges n).currentNode = some x → x.id = a →
      (stateAfter nodes edges (n + 1)).currentNode = mapGet (nodeMap nodes) c) ∧
    (∀ fuel r k s, getActivePipeline fuel nodes edges = some r → r[k]? = some s → s.id = a →
      r[k + 1]? = (mapGet (nodeMap nodes) c).map (fun y => mkStep y (k + 2)) ∧
      ∀ t, r[k + 1]? = some t → t.id = c) := by
  have hmap : mapGet (edgeMap edges) a = some c := by
    have := mapGet_edgeMap_last (pre ++ Edge.mk a b :: mid) post (Edge.mk a c) hpost
    rw [hedges]
    simpa using this
  have hnext : ∀ x : Node, x.id = a → nextNode nodes edges x = mapGet (nodeMap nodes) c := by
    intro x hx
    simp [nextNode, hx, hmap]
  refine ⟨hmap, mapGet_edgeMap_eq_getLast? edges, ?_, ?_⟩
  · intro n x hcur hx
    rw [stateAfter_succ_currentNode, hcur, Option.some_bind, hnext x hx]
  · intro fuel r k s hr hs hsa
    obtain ⟨x, _, hsx, hsucc⟩ := getActivePipeline_getElem?_succ nodes edges fuel r hr k s hs
    have hx : x.id = a := by rw [← hsa, hsx]; rfl
    rw [hnext x hx] at hsucc
    refine ⟨hsucc, ?_⟩
    intro t ht
    rw [hsucc] at ht
    cases hy : mapGet (nodeMap nodes) c with
    | none => simp [hy] at ht
    | some y =>
      simp only [hy, Option.map_some', Option.some.injEq] at ht
      rw [← ht]
      exact (mapGet_nodeMap_mem nodes c y hy).2

/-- Witness of claim C2: with the edges "1" to "2" and then "1" to "3", the
successor of "1" is "3". -/
theorem getActivePipeline_last_edge_wins_witness :
    mapGet (edgeMap forkEdges) "1" = some "3" ∧
    (∀ k, mapGet (edgeMap forkEdges) k =
      ((forkEdges.filter (fun e => e.source = k)).getLast?).map Edge.target) ∧
    (∀ n x, (stateAfter chainNodes forkEdges n).currentNode = some x → x.id = "1" →
      (stateAfter chainNodes forkEdges (n + 1)).currentNode = mapGet (nodeMap chainNodes) "3") ∧
    (∀ fuel r k s, getActivePipeline fuel chainNodes forkEdges = some r → r[k]? = some s →
      s.id = "1" →
      r[k + 1]? = (mapGet (nodeMap chainNodes) "3").map (fun y => mkStep y (k + 2)) ∧
      ∀ t, r[k + 1]? = some t → t.id = "3") :=
  getActivePipeline_last_edge_wins chainNodes forkEdges [] [] [] "1" "2" "3" rfl
    (by simp)

/-- Claim C3. A key that is a non-empty string of decimal digits is not a key
of the parameters of any step the loop pushes, and the mapping
`{"files": ["a","b"], "0": "x", "1": "y"}` is filtered to the mapping whose only
key is "files". -/
theorem filteredParameters_drops_digit_keys (nodes : List Node) (edges : List Edge) (n : Nat)
    (s : Step) (k : String) (hs : s ∈ (stateAfter nodes edges n).pipeline)
    (hk : isDecimalDigits k.toList = true) :
    k ∉ paramKeys s.data.parameters ∧
    filteredParameters filesParameters = [("files", JVal.arr [JVal.str "a", JVal.str "b"])] := by
  refine ⟨?_, rfl⟩
  obtain ⟨i, x, _, rfl⟩ := exists_node_of_mem_pipeline nodes edges n s hs
  intro hmem
  obtain ⟨e, he, rfl⟩ := List.mem_map.1 hmem
  have h1 : isNaN e.1 = true := isNaN_of_mem_filteredParameters x.data.parameters e he
  rw [isNaN_of_digits e.1 hk] at h1
  cases h1

/-- Witness of claim C3: the key "0" of node "1" with the mapping of the claim. -/
theorem filteredParameters_drops_digit_keys_witness :
    "0" ∈ paramKeys filesParameters ∧
    ("0" ∉ paramKeys (mkStep (sampleNode "1" filesParameters) 1).data.parameters ∧
      filteredParameters filesParameters =
        [("files", JVal.arr [JVal.str "a", JVal.str "b"])]) :=
  ⟨by decide,
   filteredParameters_drops_digit_keys [sampleNode "1" filesParameters] [] 1
    (mkStep (sampleNode "1" filesParameters) 1) "0"
    (by simp [stateAfter, loopStep, initState, loopBody, nodeMap, newMap, mapSet, mapGet,
      sampleNode])
    (by decide)⟩

/-- Claim C4, evaluated where it fails: node "1" carries the mapping
`{"": "x", "name": "y"}`; the empty string is one of its keys and is not a
string of digits, yet the returned step has the key "name" only. -/
theorem getActivePipeline_drops_empty_key :
    "" ∈ paramKeys emptyKeyParameters ∧ isDecimalDigits "".toList = false ∧
    isNaN "" = false ∧
    ∃ s, getActivePipeline 1 [sampleNode "1" emptyKeyParameters] [] = some [s] ∧
      paramKeys s.data.parameters = ["name"] :=
  ⟨by decide, by decide, by decide, mkStep (sampleNode "1" emptyKeyParameters) 1, rfl, by decide⟩

/-- Claim C5. When no node has id "1" the call returns the empty sequence,
whatever the edges and with no pass through the loop. -/
theorem getActivePipeline_no_start (nodes : List Node) (edges : List Edge) (fuel : Nat)
    (h : ∀ n ∈ nodes, n.id ≠ "1") : getActivePipeline fuel nodes edges = some [] := by
  unfold getActivePipeline whileLoop
  simp [initState, mapGet_nodeMap_none nodes "1" h]

/-- Witness of claim C5: a graph whose only node has id "2". -/
theorem getActivePipeline_no_start_witness :
    getActivePipeline 0 [sampleNode "2" Parameters.absent] chainEdges = some [] :=
  getActivePipeline_no_start [sampleNode "2" Parameters.absent] chainEdges 0
    (by simp [sampleNode])

/-- Claim C6. When some node has id "1" and there is no edge, the call returns
exactly one step: a node of the list with id "1", carrying index 1. -/
theorem getActivePipeline_no_edges (nodes : List Node) (h : ∃ n ∈ nodes, n.id = "1") :
    ∃ n ∈ nodes, n.id = "1" ∧
      (∀ fuel, 1 ≤ fuel → getActivePipeline fuel nodes [] = some [mkStep n 1]) ∧
      (mkStep n 1).id = "1" ∧ (mkStep n 1).index = 1 := by
  cases hget : mapGet (nodeMap nodes) "1" with
  | none =>
    obtain ⟨n, hn⟩ := mapGet_nodeMap_of_exists nodes "1" h
    rw [hn] at hget
    cases hget
  | some n =>
    obtain ⟨hn, hid⟩ := mapGet_nodeMap_mem nodes "1" n hget
    refine ⟨n, hn, hid, ?_, hid, rfl⟩
    intro fuel hfuel
    obtain ⟨f, rfl⟩ : ∃ f, fuel = f + 1 := ⟨fuel - 1, by omega⟩
    unfold getActivePipeline whileLoop
    simp only [initState, hget]
    unfold whileLoop
    simp [loopBody, nextNode, edgeMap, newMap, mapGet]

/-- Witness of claim C6: the three sample nodes without edges. -/
theorem getActivePipeline_no_edges_witness :
    ∃ n ∈ chainNodes, n.id = "1" ∧
      (∀ fuel, 1 ≤ fuel → getActivePipeline fuel chainNodes [] = some [mkStep n 1]) ∧
      (mkStep n 1).id = "1" ∧ (mkStep n 1).index = 1 :=
  getActivePipeline_no_edges chainNodes
    ⟨sampleNode "1" (Parameters.list []), by simp [chainNodes], rfl⟩

/-- Claim C7. When the loop is at a node `x` (after `n` passes) and `x` has no
outgoing edge, or the successor lookup gives for `x` an id that no node has,
the call returns after one more pass: the result has `n + 1` steps and its last
step is `x`. -/
theorem getActivePipeline_stops_at_terminal (nodes : List Node) (edges : List Edge) (n : Nat)
    (x : Node) (hreach : (stateAfter nodes edges n).currentNode = some x)
    (hend : (∀ e ∈ edges, e.source ≠ x.id) ∨
      ∃ t, mapGet (edgeMap edges) x.id = some t ∧ ∀ m ∈ nodes, m.id ≠ t) :
    ∃ r, (∀ fuel, n + 1 ≤ fuel → getActivePipeline fuel nodes edges = some r) ∧
      r.length = n + 1 ∧ r.getLast? = some (mkStep x (n + 1)) := by
  have hnext : nextNode nodes edges x = none := by
    rcases hend with h | ⟨t, ht, hno⟩
    · exact nextNode_of_no_edge nodes edges x h
    · simp [nextNode, ht, mapGet_nodeMap_none nodes t hno]
  have hcur : (stateAfter nodes edges (n + 1)).currentNode = none := by
    rw [stateAfter_succ_currentNode, hreach, Option.some_bind, hnext]
  have hpipe := stateAfter_succ_pipeline nodes edges n
  rw [hreach] at hpipe
  simp only [Option.map_some', Option.toList_some] at hpipe
  refine ⟨(stateAfter nodes edges (n + 1)).pipeline, ?_, ?_, ?_⟩
  · intro fuel hfuel
    obtain ⟨d, rfl⟩ := Nat.exists_eq_add_of_le hfuel
    rw [getActivePipeline_eq_stateAfter, stateAfter_of_none nodes edges (n + 1) d hcur, hcur]
  · rw [hpipe, List.length_append, (stateAfter_running nodes edges n x hreach).2]
    rfl
  · rw [hpipe, List.getLast?_append]
    rfl

/-- Witness of claim C7: node "1" whose only edge leads to the unknown id "7". -/
theorem getActivePipeline_stops_at_terminal_witness :
    ∃ r, (∀ fuel, 0 + 1 ≤ fuel → getActivePipeline fuel chainNodes danglingEdges = some r) ∧
      r.length = 0 + 1 ∧
      r.getLast? = some (mkStep (sampleNode "1" (Parameters.list [])) (0 + 1)) :=
  getActivePipeline_stops_at_terminal chainNodes danglingEdges 0
    (sampleNode "1" (Parameters.list [])) rfl
    (Or.inr ⟨"7", rfl, by simp [chainNodes, sampleNode]⟩)

/-- Claim C9. Two calls on the same nodes and edges that both return give the
same step sequence: same length and equal steps position by position. -/
theorem getActivePipeline_deterministic (nodes : List Node) (edges : List Edge) (f g : Nat)
    (r s : List Step) (hf : getActivePipeline f nodes edges = some r)
    (hg : getActivePipeline g nodes edges = some s) :
    r = s ∧ r.length = s.length ∧ ∀ k : Nat, r[k]? = s[k]? := by
  have h := getActivePipeline_fuel_irrelevant nodes edges f g r s hf hg
  subst h
  exact ⟨rfl, rfl, fun _ => rfl⟩

/-- Witness of claim C9: two calls on the chain "1", "2", "3", one given three
passes and one given five. -/
theorem getActivePipeline_deterministic_witness :
    getActivePipeline 3 chainNodes chainEdges = some (stepsFrom 1 chainNodes) ∧
    getActivePipeline 5 chainNodes chainEdges = some (stepsFrom 1 chainNodes) ∧
    (stepsFrom 1 chainNodes = stepsFrom 1 chainNodes ∧
      (stepsFrom 1 chainNodes).length = (stepsFrom 1 chainNodes).length ∧
      ∀ k : Nat, (stepsFrom 1 chainNodes)[k]? = (stepsFrom 1 chainNodes)[k]?) :=
  ⟨rfl, rfl, getActivePipeline_deterministic chainNodes chainEdges 3 5 (stepsFrom 1 chainNodes)
    (stepsFrom 1 chainNodes) rfl rfl⟩

/-- Claim C10. Dropping a type `t` at position `p` on a node list of length `n`
yields that list followed by one new node whose id is the decimal numeral of
`n + 1`, whose type is `t` and whose position is `p`. -/
theorem onDrop_appends_node (availableNodes : List CatalogEntry) (nodes : List Node)
    (t : String) (p : Position) :
    ∃ newNode, onDrop availableNodes nodes t p nodes = nodes ++ [newNode] ∧
      newNode.id = Nat.repr (nodes.length + 1) ∧ newNode.type = t ∧ newNode.position = p ∧
      (onDrop availableNodes nodes t p nodes).length = nodes.length + 1 ∧
      (onDrop availableNodes nodes t p nodes).take nodes.length = nodes :=
  ⟨_, rfl, rfl, rfl, rfl, by simp [onDrop], by simp [onDrop]⟩

/-! ## Decimal numerals -/

theorem digitChar_value (k : Nat) (hk : k < 10) : (Nat.digitChar k).toNat - 48 = k := by
  interval_cases k <;> rfl

theorem foldl_decimal_toDigitsCore (fuel : Nat) :
    ∀ n ds, n < fuel →
      ∃ x, Nat.toDigitsCore 10 fuel n ds = x ++ ds ∧
        x.foldl (fun acc c => 10 * acc + (c.toNat - 48)) 0 = n := by
  induction fuel with
  | zero => intro n ds h; omega
  | succ fuel ih =>
    intro n ds hn
    unfold Nat.toDigitsCore
    by_cases h0 : n / 10 = 0
    · refine ⟨[Nat.digitChar (n % 10)], by simp [h0], ?_⟩
      simp only [List.foldl_cons, List.foldl_nil, Nat.mul_zero, Nat.zero_add]
      rw [digitChar_value _ (Nat.mod_lt _ (by decide))]
      omega
    · obtain ⟨x, hx, hval⟩ := ih (n / 10) (Nat.digitChar (n % 10) :: ds) (by omega)
      refine ⟨x ++ [Nat.digitChar (n % 10)], by simp [h0, hx], ?_⟩
      rw [List.foldl_append, hval]
      simp only [List.foldl_cons, List.foldl_nil]
      rw [digitChar_value _ (Nat.mod_lt _ (by decide))]
      omega

/-- Reading the decimal numeral of `n` gives `n` back. -/
theorem foldl_decimal_repr (n : Nat) :
    (Nat.repr n).toList.foldl (fun acc c => 10 * acc + (c.toNat - 48)) 0 = n := by
  obtain ⟨x, hx, hval⟩ := foldl_decimal_toDigitsCore (n + 1) n [] (Nat.lt_succ_self n)
  simp only [List.append_nil] at hx
  simp only [Nat.repr, Nat.toDigits, hx, List.asString, String.toList]
  exact hval

theorem repr_injective (a b : Nat) (h : Nat.repr a = Nat.repr b) : a = b := by
  rw [← foldl_decimal_repr a, ← foldl_decimal_repr b, h]

theorem toString_nat_injective (a b : Nat) (h : toString a = toString b) : a = b :=
  repr_injective a b h

/-! ## Lemmas on the graph model -/

/-- A list with an element satisfying `p` splits at the first such element,
which is the one `find?` returns. -/
theorem find?_first_split {α : Type} (p : α → Bool) (l : List α) (h : ∃ x ∈ l, p x = true) :
    ∃ pre x post, l = pre ++ x :: post ∧ p x = true ∧ (∀ y ∈ pre, p y = false) ∧
      l.find? p = some x := by
  induction l with
  | nil => simp at h
  | cons a rest ih =>
    by_cases ha : p a = true
    · exact ⟨[], a, rest, rfl, ha, by simp, by simp [List.find?_cons, ha]⟩
    · simp only [Bool.not_eq_true] at ha
      have hr : ∃ x ∈ rest, p x = true := by
        obtain ⟨x, hx, hpx⟩ := h
        rcases List.mem_cons.1 hx with rfl | hx'
        · rw [ha] at hpx; cases hpx
        · exact ⟨x, hx', hpx⟩
      obtain ⟨pre, x, post, hl, hx, hpre, hfind⟩ := ih hr
      refine ⟨a :: pre, x, post, by simp [hl], hx, ?_, by simp [List.find?_cons, ha, hfind]⟩
      intro y hy
      rcases List.mem_cons.1 hy with rfl | hy'
      · exact ha
      · exact hpre y hy'

theorem find?_eq_none_of_forall {α : Type} (p : α → Bool) (l : List α)
    (h : ∀ x ∈ l, p x = false) : l.find? p = none := by
  induction l with
  | nil => rfl
  | cons a rest ih =>
    simp [List.find?_cons, h a (List.mem_cons_self _ _),
      ih (fun x hx => h x (List.mem_cons_of_mem _ hx))]

theorem handleSaveParameters_map_id (nodeId : String) (parameters : Parameters)
    (nds : List Node) :
    (handleSaveParameters nodeId parameters nds).map Node.id = nds.map Node.id := by
  unfold handleSaveParameters
  rw [List.map_map]
  apply List.map_congr_left
  intro n _
  simp only [Function.comp]
  split <;> rfl

/-- The ids of a reachable state are the numerals "1", "2", ... in order. -/
theorem reachable_ids_eq_range (addEdge : Edge → List Edge → List Edge) (st : EditorState)
    (h : Reachable addEdge st) :
    st.nodes.map Node.id = (List.range st.nodes.length).map (fun i => toString (i + 1)) ∧
      0 < st.nodes.length := by
  induction h with
  | mount => exact ⟨rfl, by decide⟩
  | setAvailableNodes st functions _ ih => exact ih
  | onDrop st nodeType position _ ih =>
    obtain ⟨h1, h2⟩ := ih
    constructor
    · simp only [EditorState.onDrop, onDrop, List.map_append, List.map_cons, List.map_nil,
        List.length_append, List.length_singleton, List.range_succ]
      rw [h1]
    · simp [EditorState.onDrop, onDrop]
  | handleSaveParameters st nodeId parameters _ ih =>
    obtain ⟨h1, h2⟩ := ih
    have hlen : (handleSaveParameters nodeId parameters st.nodes).length = st.nodes.length := by
      simp [handleSaveParameters]
    constructor
    · simp only [EditorState.handleSaveParameters]
      rw [handleSaveParameters_map_id, hlen]
      exact h1
    · simp only [EditorState.handleSaveParameters]
      rw [hlen]
      exact h2
  | onConnect st params _ ih => exact ih
  | onNodeClick st node _ ih => exact ih
  | setPipelineName st value _ ih => exact ih

theorem nodup_numerals (n : Nat) :
    ((List.range n).map (fun i => toString (i + 1))).Nodup := by
  apply List.Nodup.map _ (List.nodup_range n)
  intro a b hab
  have := toString_nat_injective (a + 1) (b + 1) hab
  omega

theorem filter_id_length_eq_count (nodes : List Node) (k : String) :
    (nodes.filter (fun n => n.id = k)).length = (nodes.map Node.id).count k := by
  induction nodes with
  | nil => rfl
  | cons a rest ih =>
    by_cases h : a.id = k
    · simp [List.filter_cons, h, ih]
    · simp [List.filter_cons, h, ih, List.count_cons]

/-! ## Claims on the graph model -/

/-- Claim C11. When the catalog has an entry named `t`, the node that `onDrop`
appends for type `t` takes its parameters from the first such entry: the
entry's parameter list (left undefined when that entry has no `parameters`). -/
theorem onDrop_parameters_from_catalog (availableNodes : List CatalogEntry) (nodes nds : List Node)
    (t : String) (p : Position) (h : ∃ e ∈ availableNodes, e.name = t) :
    ∃ pre entry post newNode, availableNodes = pre ++ entry :: post ∧ entry.name = t ∧
      (∀ e ∈ pre, e.name ≠ t) ∧
      onDrop availableNodes nodes t p nds = nds ++ [newNode] ∧
      newNode.data.parameters =
        (match entry.parameters with
         | some ps => Parameters.list ps
         | none => Parameters.absent) := by
  obtain ⟨pre, entry, post, hl, hname, hpre, hfind⟩ :=
    find?_first_split (fun node => node.name == t) availableNodes
      (by obtain ⟨e, he, hn⟩ := h; exact ⟨e, he, by simp [hn]⟩)
  refine ⟨pre, entry, post, _, hl, by simpa using hname, ?_, rfl, ?_⟩
  · intro e he
    simpa using hpre e he
  · simp only [hfind]

/-- Witness of claim C11: dropping "normalize" on the sample catalog. -/
theorem onDrop_parameters_from_catalog_witness :
    ∃ pre entry post newNode, sampleCatalog = pre ++ entry :: post ∧ entry.name = "normalize" ∧
      (∀ e ∈ pre, e.name ≠ "normalize") ∧
      onDrop sampleCatalog initialNodes "normalize" { x := 10, y := 20 } initialNodes =
        initialNodes ++ [newNode] ∧
      newNode.data.parameters =
        (match entry.parameters with
         | some ps => Parameters.list ps
         | none => Parameters.absent) :=
  onDrop_parameters_from_catalog sampleCatalog initialNodes initialNodes "normalize"
    { x := 10, y := 20 }
    ⟨{ name := "normalize", parameters := some [] }, by simp [sampleCatalog], rfl⟩

/-- Claim C12. When no catalog entry is named `t` (the catalog may be empty),
`onDrop` still appends a node of type `t`, with the empty parameter list; the
step built from that node has empty parameters, and when the loop is at that
node it pushes that step. -/
theorem onDrop_unknown_type (availableNodes : List CatalogEntry) (nodes nds : List Node)
    (t : String) (p : Position) (h : ∀ e ∈ availableNodes, e.name ≠ t) :
    ∃ newNode, onDrop availableNodes nodes t p nds = nds ++ [newNode] ∧ newNode.type = t ∧
      newNode.data.parameters = Parameters.list [] ∧
      (∀ i, (mkStep newNode i).data.parameters = Parameters.record []) ∧
      ∀ (graph : List Node) (edges : List Edge) (n : Nat),
        (stateAfter graph edges n).currentNode = some newNode →
        (stateAfter graph edges (n + 1)).pipeline =
          (stateAfter graph edges n).pipeline ++ [mkStep newNode (n + 1)] := by
  have hfind : availableNodes.find? (fun node => node.name == t) = none :=
    find?_eq_none_of_forall _ _ (fun e he => by simpa using h e he)
  refine ⟨_, rfl, rfl, ?_, ?_, ?_⟩
  · simp only [hfind]
  · intro i
    simp only [mkStep, hfind]
    rfl
  · intro graph edges n hcur
    rw [stateAfter_succ_pipeline, hcur]
    rfl

/-- Witness of claim C12: dropping the type "unknown" while the catalog is empty. -/
theorem onDrop_unknown_type_witness :
    ∃ newNode, onDrop [] initialNodes "unknown" { x := 0, y := 0 } initialNodes =
        initialNodes ++ [newNode] ∧ newNode.type = "unknown" ∧
      newNode.data.parameters = Parameters.list [] ∧
      (∀ i, (mkStep newNode i).data.parameters = Parameters.record []) ∧
      ∀ (graph : List Node) (edges : List Edge) (n : Nat),
        (stateAfter graph edges n).currentNode = some newNode →
        (stateAfter graph edges (n + 1)).pipeline =
          (stateAfter graph edges n).pipeline ++ [mkStep newNode (n + 1)] :=
  onDrop_unknown_type [] initialNodes initialNodes "unknown" { x := 0, y := 0 } (by simp)

/-- Claim C13. Saving the parameters `P` for node id `i` keeps the length and
order of the node list; at every position a node with id `i` keeps its id,
type, position and label and gets exactly `P` as parameters, a node with
another id is unchanged; the edge list is unchanged. -/
theorem handleSaveParameters_frame (st : EditorState) (i : String) (P : Parameters) :
    (st.handleSaveParameters i P).nodes.length = st.nodes.length ∧
    (∀ (k : Nat) (n : Node), st.nodes[k]? = some n →
      ∃ m, (st.handleSaveParameters i P).nodes[k]? = some m ∧
        (n.id = i → m.id = n.id ∧ m.type = n.type ∧ m.position = n.position ∧
          m.data.label = n.data.label ∧ m.data.parameters = P) ∧
        (n.id ≠ i → m = n)) ∧
    (st.handleSaveParameters i P).edges = st.edges := by
  refine ⟨by simp [EditorState.handleSaveParameters, handleSaveParameters], ?_, rfl⟩
  intro k n hk
  simp only [EditorState.handleSaveParameters, handleSaveParameters, List.getElem?_map, hk,
    Option.map_some']
  by_cases h : n.id = i
  · exact ⟨_, rfl, fun _ => by simp [h], fun hne => absurd h hne⟩
  · exact ⟨_, rfl, fun he => absurd he h, fun _ => by simp [h]⟩

/-- Witness of claim C13: saving the mapping `{"": "x", "name": "y"}` for node
"1" of the three sample nodes. -/
theorem handleSaveParameters_frame_witness :
    chainNodes[0]? = some (sampleNode "1" (Parameters.list [])) ∧
    ∃ m, (handleSaveParameters "1" emptyKeyParameters chainNodes)[0]? = some m ∧
      m.id = "1" ∧ m.data.label = "step Node" ∧ m.data.parameters = emptyKeyParameters :=
  ⟨rfl, by
    obtain ⟨m, hm, h1, _⟩ := (handleSaveParameters_frame
      { nodes := chainNodes, edges := chainEdges, availableNodes := [], selectedNode := none,
        pipelineName := "" } "1" emptyKeyParameters).2.1 0
      (sampleNode "1" (Parameters.list [])) rfl
    obtain ⟨hid, _, _, hlabel, hpar⟩ := h1 rfl
    exact ⟨m, hm, hid, hlabel, hpar⟩⟩

/-- Claim C14. In every state reached from the mounted editor by drops,
parameter saves and connections (and catalog loads, clicks and name edits),
exactly one node has id "1" and the node ids are pairwise distinct. -/
theorem reachable_unique_start (addEdge : Edge → List Edge → List Edge) (st : EditorState)
    (h : Reachable addEdge st) :
    (st.nodes.filter (fun n => n.id = "1")).length = 1 ∧ (st.nodes.map Node.id).Nodup := by
  obtain ⟨hids, hpos⟩ := reachable_ids_eq_range addEdge st h
  have hnodup : (st.nodes.map Node.id).Nodup := by
    rw [hids]
    exact nodup_numerals _
  refine ⟨?_, hnodup⟩
  rw [filter_id_length_eq_count]
  apply List.count_eq_one_of_mem hnodup
  rw [hids]
  exact List.mem_map.2 ⟨0, List.mem_range.2 hpos, rfl⟩

/-- Witness of claim C14: the state after loading the catalog and dropping a node. -/
theorem reachable_unique_start_witness :
    (sampleState.nodes.filter (fun n => n.id = "1")).length = 1 ∧
      (sampleState.nodes.map Node.id).Nodup :=
  reachable_unique_start (fun e es => es ++ [e]) sampleState
    (Reachable.onDrop _ _ _ (Reachable.setAvailableNodes _ _ Reachable.mount))

/-- Claim C15. Two editor states with the same node list and the same edge
list resolve to the same pipeline, whatever their selected node, catalog and
pipeline name; in particular clicking a node does not change the result. -/
theorem getActivePipeline_ignores_selection (st1 st2 : EditorState) (fuel : Nat)
    (hnodes : st1.nodes = st2.nodes) (hedges : st1.edges = st2.edges) :
    st1.getActivePipeline fuel = st2.getActivePipeline fuel ∧
    ∀ node, (st1.onNodeClick node).getActivePipeline fuel = st1.getActivePipeline fuel := by
  refine ⟨?_, fun _ => rfl⟩
  simp only [EditorState.getActivePipeline, hnodes, hedges]

/-- Witness of claim C15: the sample state against the same graph with
another catalog, a selected node and a pipeline name. -/
theorem getActivePipeline_ignores_selection_witness :
    sampleState.getActivePipeline 2 =
      EditorState.getActivePipeline 2
        { sampleState with availableNodes := [], selectedNode := initialNodes.head?,
                           pipelineName := "run" } ∧
    ∀ node, (sampleState.onNodeClick node).getActivePipeline 2 =
      sampleState.getActivePipeline 2 :=
  getActivePipeline_ignores_selection sampleState
    { sampleState with availableNodes := [], selectedNode := initialNodes.head?,
                       pipelineName := "run" } 2 rfl rfl

/-! ## Claims on submission and routing -/

/-- Claim C16, evaluated where it fails: on the mounted editor with the name
"run", the data that `handleSavePipeline` and `handleRunPipeline` pass to
`api.post` is an object with the single field `body`, holding the JSON text;
it has no field `pipeline` and no field `name`. -/
theorem handleSavePipeline_wraps_body (stringify : List Step → Option String → String) :
    ∃ steps, getActivePipeline 1 initialNodes initialEdges = some steps ∧
      (handleSavePipeline stringify 1 "7" (initialState.setPipelineName "run")).map
          PostRequest.data =
        some (JVal.obj [("body", JVal.str (stringify steps (some "run")))]) ∧
      (handleRunPipeline stringify 1 "7" (initialState.setPipelineName "run")).map
          PostRequest.data =
        some (JVal.obj [("body", JVal.str (stringify steps none))]) ∧
      (JVal.obj [("body", JVal.str (stringify steps (some "run")))]).getProp "pipeline" = none ∧
      (JVal.obj [("body", JVal.str (stringify steps (some "run")))]).getProp "name" = none ∧
      (JVal.obj [("body", JVal.str (stringify steps none))]).getProp "pipeline" = none :=
  ⟨stepsFrom 1 initialNodes, rfl, rfl, rfl, rfl, rfl, rfl⟩

/-- The request data of both handlers has the field `body` and no other, for
every state on which `getActivePipeline` returns. -/
theorem handleSavePipeline_data (stringify : List Step → Option String → String) (fuel : Nat)
    (progressive_id : String) (st : EditorState) (steps : List Step)
    (h : st.getActivePipeline fuel = some steps) :
    (handleSavePipeline stringify fuel progressive_id st).map PostRequest.data =
      some (JVal.obj [("body", JVal.str (stringify steps (some st.pipelineName)))]) ∧
    (handleRunPipeline stringify fuel progressive_id st).map PostRequest.data =
      some (JVal.obj [("body", JVal.str (stringify steps none))]) := by
  simp [handleSavePipeline, handleRunPipeline, h]

/-- Every route of `App` other than the landing page and the FCS report is
wrapped in `ProtectedRoute` or `AdminRoute`, and renders `<Navigate to="/" />`
when local storage has no access token. -/
theorem appRoutes_guarded_except_report (role : Option String) :
    ∀ r ∈ appRoutes, r.path ≠ "/" → r.path ≠ "/project/:projectId/report/:pipelineId" →
      r.wrapper ≠ Wrapper.bare ∧ r.render role none = View.navigate "/" := by
  intro r hr
  simp only [appRoutes, List.mem_cons, List.mem_singleton, List.not_mem_nil, or_false] at hr
  rcases hr with h | h | h | h | h | h | h | h | h | h | h | h | h | h | h | h | h | h | h | h |
    h | h | h | h | h | h | h | h | h | h | h <;> subst h <;> intro h1 h2 <;>
    first
    | exact absurd rfl h1
    | exact absurd rfl h2
    | exact ⟨by decide, rfl⟩

/-- Claim C17, evaluated where it fails: the route
`/project/:projectId/report/:pipelineId` is declared in `App`, is not the
landing page, is not wrapped in a guard, and renders the `ReportFCS` view when
local storage holds no access token. -/
theorem appRoutes_report_unguarded :
    ∃ r ∈ appRoutes, r.path = "/project/:projectId/report/:pipelineId" ∧ r.path ≠ "/" ∧
      r.wrapper = Wrapper.bare ∧
      ∀ role, r.render role none = View.page "ReportFCS" :=
  ⟨⟨"/project/:projectId/report/:pipelineId", Wrapper.bare, "ReportFCS"⟩, by decide, rfl,
    by decide, rfl, fun _ => rfl⟩

/-! ## Lemmas on node objects -/

theorem mapSet_map {β γ : Type} (g : β → γ) (m : List (String × β)) (k : String) (v : β) :
    mapSet (m.map (fun e => (e.1, g e.2))) k (g v) =
      (mapSet m k v).map (fun e => (e.1, g e.2)) := by
  induction m with
  | nil => rfl
  | cons e rest ih =>
    by_cases h : e.1 = k
    · simp [mapSet, h]
    · simp [mapSet, h, ih]

theorem foldl_mapSet_map {β γ : Type} (g : β → γ) (l m : List (String × β)) :
    (l.map (fun e => (e.1, g e.2))).foldl (fun m e => mapSet m e.1 e.2)
        (m.map (fun e => (e.1, g e.2))) =
      (l.foldl (fun m e => mapSet m e.1 e.2) m).map (fun e => (e.1, g e.2)) := by
  induction l generalizing m with
  | nil => rfl
  | cons e rest ih =>
    simp only [List.map_cons, List.foldl_cons]
    rw [mapSet_map, ih]

theorem mapGet_map {β γ : Type} (g : β → γ) (m : List (String × β)) (k : String) :
    mapGet (m.map (fun e => (e.1, g e.2))) k = (mapGet m k).map g := by
  induction m with
  | nil => rfl
  | cons e rest ih =>
    by_cases h : e.1 = k
    · simp [mapGet, h]
    · simp [mapGet, h, ih]

theorem mapGet_rawNodeMap (nodes : List Node) (k : String) :
    mapGet (rawNodeMap (nodes.map Node.toRaw)) k = (mapGet (nodeMap nodes) k).map Node.toRaw := by
  have h : (nodes.map Node.toRaw).map (fun node => (node.id, node)) =
      (nodes.map (fun node => (node.id, node))).map (fun e => (e.1, Node.toRaw e.2)) := by
    simp [List.map_map, Function.comp, Node.toRaw]
  unfold rawNodeMap nodeMap newMap
  rw [h]
  have := foldl_mapSet_map Node.toRaw (nodes.map (fun node => (node.id, node))) []
  simp only [List.map_nil] at this
  rw [this, mapGet_map]

theorem getActivePipeline_mono (nodes : List Node) (edges : List Edge) (n fuel : Nat)
    (r : List Step) (h : getActivePipeline n nodes edges = some r) (hle : n ≤ fuel) :
    getActivePipeline fuel nodes edges = some r := by
  rw [getActivePipeline_eq_stateAfter] at h ⊢
  cases hc : (stateAfter nodes edges n).currentNode with
  | some c => simp [hc] at h
  | none =>
    obtain ⟨d, rfl⟩ := Nat.exists_eq_add_of_le hle
    rw [stateAfter_of_none nodes edges n d hc]
    exact h

theorem currentNode_mem (nodes : List Node) (edges : List Edge) (n : Nat) (x : Node)
    (h : (stateAfter nodes edges n).currentNode = some x) : x ∈ nodes := by
  cases n with
  | zero => exact (mapGet_nodeMap_mem nodes "1" x h).1
  | succ n =>
    rw [stateAfter_succ_currentNode] at h
    cases hc : (stateAfter nodes edges n).currentNode with
    | none => simp [hc] at h
    | some c =>
      rw [hc, Option.some_bind] at h
      unfold nextNode at h
      cases ht : mapGet (edgeMap edges) c.id with
      | none => simp [ht] at h
      | some t =>
        simp only [ht] at h
        exact (mapGet_nodeMap_mem nodes t x h).1

theorem mem_of_getActivePipeline (nodes : List Node) (edges : List Edge) (fuel : Nat)
    (r : List Step) (h : getActivePipeline fuel nodes edges = some r) (s : Step) (hs : s ∈ r) :
    ∃ x i, x ∈ nodes ∧ s = mkStep x i := by
  rw [getActivePipeline_eq_stateAfter] at h
  cases hc : (stateAfter nodes edges fuel).currentNode with
  | some c => simp [hc] at h
  | none =>
    simp only [hc, Option.some.injEq] at h
    subst h
    obtain ⟨k, x, hx, hsx⟩ := exists_node_of_mem_pipeline nodes edges fuel s hs
    exact ⟨x, k + 1, currentNode_mem nodes edges k x hx, hsx⟩


theorem rawNextNode_toRaw (nodes : List Node) (edges : List Edge) (c : Node) :
    rawNextNode (nodes.map Node.toRaw) edges c.toRaw =
      (nextNode nodes edges c).map Node.toRaw := by
  unfold rawNextNode nextNode
  have : c.toRaw.id = c.id := rfl
  rw [this]
  cases mapGet (edgeMap edges) c.id with
  | none => rfl
  | some t => exact mapGet_rawNodeMap nodes t

theorem whileLoopRaw_zero (raws : List RawNode) (edges : List Edge) (st : RawLoopState) :
    whileLoopRaw raws edges 0 st =
      (match st.currentNode with
       | none => Outcome.returned st.pipeline
       | some _ => Outcome.running) := by
  unfold whileLoopRaw
  cases st.currentNode <;> rfl

/-- While the array has room, `fuel` passes of the loop over node objects
that all carry `data` are `fuel` passes of the loop over nodes. -/
theorem whileLoopRaw_add (nodes : List Node) (edges : List Edge) (extra fuel : Nat) :
    ∀ st : LoopState, st.pipeline.length + fuel ≤ maxArrayLength →
      whileLoopRaw (nodes.map Node.toRaw) edges (fuel + extra) st.toRaw =
        whileLoopRaw (nodes.map Node.toRaw) edges extra
          ((loopStep nodes edges)^[fuel] st).toRaw := by
  induction fuel with
  | zero =>
    intro st _
    simp
  | succ fuel ih =>
    intro st hlen
    cases h : st.currentNode with
    | none =>
      rw [loopStep_iterate_of_none nodes edges st h]
      have hraw : st.toRaw.currentNode = none := by simp [LoopState.toRaw, h]
      unfold whileLoopRaw
      simp only [hraw]
    | some c =>
      have hraw : st.toRaw.currentNode = some c.toRaw := by simp [LoopState.toRaw, h]
      have hstep : loopStep nodes edges st = loopBody nodes edges c st := by
        simp [loopStep, h]
      have hroom : st.toRaw.pipeline.length < maxArrayLength := by
        show st.pipeline.length < maxArrayLength
        omega
      have hnode : c.toRaw.toNode? = some c := rfl
      have hfuel : fuel + 1 + extra = (fuel + extra) + 1 := by omega
      rw [Function.iterate_succ_apply, hstep, hfuel]
      conv_lhs => unfold whileLoopRaw
      simp only [hraw, hnode, hroom, if_true, rawNextNode_toRaw]
      have hlen2 : (loopBody nodes edges c st).pipeline.length + fuel ≤ maxArrayLength := by
        simp only [loopBody, List.length_append, List.length_singleton]
        omega
      exact ih (loopBody nodes edges c st) hlen2

/-- Within the array bound the call on node objects that all carry `data`
ends as the call on nodes does. -/
theorem getActivePipelineRaw_eq (nodes : List Node) (edges : List Edge) (fuel : Nat)
    (hfuel : fuel ≤ maxArrayLength) :
    getActivePipelineRaw fuel (nodes.map Node.toRaw) edges =
      (match (stateAfter nodes edges fuel).currentNode with
       | none => Outcome.returned (stateAfter nodes edges fuel).pipeline
       | some _ => Outcome.running) := by
  have hinit : getActivePipelineRaw fuel (nodes.map Node.toRaw) edges =
      whileLoopRaw (nodes.map Node.toRaw) edges (fuel + 0) (initState nodes).toRaw := by
    unfold getActivePipelineRaw
    simp only [LoopState.toRaw, initState, mapGet_rawNodeMap, Nat.add_zero]
  rw [hinit, whileLoopRaw_add nodes edges 0 fuel (initState nodes)
    (by simp [initState]; exact hfuel), whileLoopRaw_zero]
  show (match ((stateAfter nodes edges fuel).toRaw).currentNode with
    | none => Outcome.returned (stateAfter nodes edges fuel).toRaw.pipeline
    | some _ => Outcome.running) = _
  cases h : (stateAfter nodes edges fuel).currentNode <;> simp [LoopState.toRaw, h]

/-- A result of the loop over node objects stays the result with more fuel. -/
theorem whileLoopRaw_mono (raws : List RawNode) (edges : List Edge) (d fuel : Nat) :
    ∀ (st : RawLoopState) (r : List Step), whileLoopRaw raws edges fuel st = Outcome.returned r →
      whileLoopRaw raws edges (fuel + d) st = Outcome.returned r := by
  induction fuel with
  | zero =>
    intro st r h
    unfold whileLoopRaw at h ⊢
    cases hc : st.currentNode with
    | none => simpa [hc] using h
    | some c => simp [hc] at h
  | succ fuel ih =>
    intro st r h
    have hfuel : fuel + 1 + d = (fuel + d) + 1 := by omega
    rw [hfuel]
    unfold whileLoopRaw at h ⊢
    cases hc : st.currentNode with
    | none => simpa [hc] using h
    | some c =>
      simp only [hc] at h ⊢
      cases hn : c.toNode? with
      | none => simp [hn] at h
      | some node =>
        simp only [hn] at h ⊢
        by_cases hroom : st.pipeline.length < maxArrayLength
        · simp only [hroom, if_true] at h ⊢
          exact ih _ r h
        · simp [hroom] at h

theorem rawChain_toRaw (nodes : List Node) (edges : List Edge) (k : Nat) :
    rawChain (nodes.map Node.toRaw) edges k =
      (stateAfter nodes edges k).currentNode.map Node.toRaw := by
  induction k with
  | zero =>
    show mapGet (rawNodeMap (nodes.map Node.toRaw)) "1" = _
    rw [mapGet_rawNodeMap]
    rfl
  | succ k ih =>
    rw [stateAfter_succ_currentNode]
    show (rawChain (nodes.map Node.toRaw) edges k).bind _ = _
    rw [ih]
    cases (stateAfter nodes edges k).currentNode with
    | none => rfl
    | some c => exact rawNextNode_toRaw nodes edges c

theorem rawChain_of_none (raws : List RawNode) (edges : List Edge) (n d : Nat)
    (h : rawChain raws edges n = none) : rawChain raws edges (n + d) = none := by
  induction d with
  | zero => exact h
  | succ d ih =>
    show (rawChain raws edges (n + d)).bind _ = none
    rw [ih]
    rfl

theorem rawNextNode_congr (raws : List RawNode) (edges : List Edge) (x y : RawNode)
    (h : x.id = y.id) : rawNextNode raws edges x = rawNextNode raws edges y := by
  unfold rawNextNode
  rw [h]

/-- Once the chain of current node objects comes back to an id it has had, it
never ends. -/
theorem rawChain_ne_none_of_revisit (raws : List RawNode) (edges : List Edge) (i j : Nat)
    (x y : RawNode) (hij : i < j) (hx : rawChain raws edges i = some x)
    (hy : rawChain raws edges j = some y) (hid : x.id = y.id) (n : Nat) :
    rawChain raws edges n ≠ none := by
  have hstep : rawChain raws edges (i + 1) = rawChain raws edges (j + 1) := by
    show (rawChain raws edges i).bind _ = (rawChain raws edges j).bind _
    rw [hx, hy, Option.some_bind, Option.some_bind, rawNextNode_congr raws edges x y hid]
  have hshift : ∀ m, rawChain raws edges (i + 1 + m) = rawChain raws edges (j + 1 + m) := by
    intro m
    induction m with
    | zero => exact hstep
    | succ m ih =>
      show (rawChain raws edges (i + 1 + m)).bind _ = (rawChain raws edges (j + 1 + m)).bind _
      rw [ih]
  induction n using Nat.strong_induction_on with
  | _ n ih =>
    by_cases hnj : n ≤ j
    · intro hnone
      obtain ⟨d, rfl⟩ := Nat.exists_eq_add_of_le hnj
      rw [rawChain_of_none raws edges n d hnone] at hy
      cases hy
    · obtain ⟨m, rfl⟩ : ∃ m, n = j + 1 + m := ⟨n - (j + 1), by omega⟩
      rw [← hshift m]
      exact ih (i + 1 + m) (by omega)

/-- A call that returns has come to the end of the chain of current nodes. -/
theorem whileLoopRaw_returned_end (raws : List RawNode) (edges : List Edge) (fuel : Nat) :
    ∀ (st : RawLoopState) (r : List Step), whileLoopRaw raws edges fuel st = Outcome.returned r →
      ∃ m, (fun o : Option RawNode => o.bind (rawNextNode raws edges))^[m] st.currentNode
        = none := by
  induction fuel with
  | zero =>
    intro st r h
    unfold whileLoopRaw at h
    cases hc : st.currentNode with
    | none => exact ⟨0, rfl⟩
    | some c => simp [hc] at h
  | succ fuel ih =>
    intro st r h
    unfold whileLoopRaw at h
    cases hc : st.currentNode with
    | none => exact ⟨0, rfl⟩
    | some c =>
      simp only [hc] at h
      cases hn : c.toNode? with
      | none => simp [hn] at h
      | some node =>
        simp only [hn] at h
        by_cases hroom : st.pipeline.length < maxArrayLength
        · simp only [hroom, if_true] at h
          obtain ⟨m, hm⟩ := ih _ r h
          refine ⟨m + 1, ?_⟩
          rw [Function.iterate_succ_apply]
          exact hm
        · simp [hroom] at h

theorem rawChain_eq_iterate (raws : List RawNode) (edges : List Edge) (k : Nat) :
    rawChain raws edges k =
      (fun o : Option RawNode => o.bind (rawNextNode raws edges))^[k]
        (mapGet (rawNodeMap raws) "1") := by
  induction k with
  | zero => rfl
  | succ k ih =>
    rw [Function.iterate_succ_apply']
    show (rawChain raws edges k).bind _ = _
    rw [ih]

theorem map_toRaw_filterMap (raws : List RawNode) (h : ∀ r ∈ raws, r.data ≠ none) :
    (raws.filterMap RawNode.toNode?).map Node.toRaw = raws := by
  induction raws with
  | nil => rfl
  | cons a rest ih =>
    have ha := h a (List.mem_cons_self _ _)
    cases hd : a.data with
    | none => exact absurd hd ha
    | some d =>
      have hnode : a.toNode? = some ⟨a.id, a.type, d, a.position⟩ := by
        simp [RawNode.toNode?, hd]
      rw [List.filterMap_cons_some hnode, List.map_cons,
        ih (fun r hr => h r (List.mem_cons_of_mem _ hr))]
      congr 1
      cases a
      simp only [Node.toRaw] at hd ⊢
      simp_all


/-- When no id comes twice in the chain of current nodes, the chain has ended
after as many passes as there are nodes. -/
theorem currentNode_none_at_length (nodes : List Node) (edges : List Edge)
    (hnorep : ∀ i j x y, i < j → (stateAfter nodes edges i).currentNode = some x →
      (stateAfter nodes edges j).currentNode = some y → x.id ≠ y.id) :
    (stateAfter nodes edges nodes.length).currentNode = none := by
  by_contra hne
  have hsome : ∀ k, k ≤ nodes.length →
      ∃ x, (stateAfter nodes edges k).currentNode = some x := by
    intro k hk
    cases hc : (stateAfter nodes edges k).currentNode with
    | some x => exact ⟨x, rfl⟩
    | none =>
      obtain ⟨d, hd⟩ := Nat.exists_eq_add_of_le hk
      rw [hd, stateAfter_of_none nodes edges k d hc] at hne
      exact absurd hc hne
  let f : Nat → String := fun k => (((stateAfter nodes edges k).currentNode).map Node.id).getD ""
  have hnodup : ((List.range (nodes.length + 1)).map f).Nodup := by
    apply List.Nodup.map_on _ (List.nodup_range _)
    intro a ha b hb hab
    obtain ⟨x, hx⟩ := hsome a (by have := List.mem_range.1 ha; omega)
    obtain ⟨y, hy⟩ := hsome b (by have := List.mem_range.1 hb; omega)
    have hxy : x.id = y.id := by simpa [f, hx, hy] using hab
    rcases Nat.lt_trichotomy a b with hlt | heq | hgt
    · exact absurd hxy (hnorep a b x y hlt hx hy)
    · exact heq
    · exact absurd hxy.symm (hnorep b a y x hgt hy hx)
  have hsub : (List.range (nodes.length + 1)).map f ⊆ nodes.map Node.id := by
    intro s hs
    obtain ⟨k, hk, rfl⟩ := List.mem_map.1 hs
    obtain ⟨x, hx⟩ := hsome k (by have := List.mem_range.1 hk; omega)
    have : f k = x.id := by simp [f, hx]
    rw [this]
    exact List.mem_map.2 ⟨x, currentNode_mem nodes edges k x hx, rfl⟩
  have hlen := (List.Nodup.subperm hnodup hsub).length_le
  simp at hlen

/-- A chain of current nodes that ends has ended after as many passes as there
are nodes. -/
theorem currentNode_none_of_finite (nodes : List Node) (edges : List Edge) (n : Nat)
    (h : (stateAfter nodes edges n).currentNode = none) :
    (stateAfter nodes edges nodes.length).currentNode = none := by
  apply currentNode_none_at_length
  intro i j x y hij hx hy hid
  exact currentNode_ne_none_of_revisit nodes edges i j x y hij hx hy hid n h

/-- A node object without `data` makes the call throw. -/
theorem getActivePipelineRaw_typeError :
    getActivePipelineRaw 1 [⟨"1", "input", none, ⟨250, 5⟩⟩] [] = Outcome.typeError :=
  rfl

/-! ## Claims on node objects and on cycles -/

theorem getActivePipelineRaw_init (nodes : List Node) (edges : List Edge) (fuel : Nat) :
    getActivePipelineRaw fuel (nodes.map Node.toRaw) edges =
      whileLoopRaw (nodes.map Node.toRaw) edges fuel (initState nodes).toRaw := by
  unfold getActivePipelineRaw
  simp only [LoopState.toRaw, initState, mapGet_rawNodeMap]

/-- A call on a graph whose chain of current nodes comes back to an id never
returns a result. -/
theorem getActivePipelineRaw_never_returns (raws : List RawNode) (edges : List Edge)
    (i j : Nat) (x y : RawNode) (hij : i < j) (hx : rawChain raws edges i = some x)
    (hy : rawChain raws edges j = some y) (hid : x.id = y.id) (fuel : Nat) (r : List Step) :
    getActivePipelineRaw fuel raws edges ≠ Outcome.returned r := by
  intro h
  obtain ⟨m, hm⟩ := whileLoopRaw_returned_end raws edges fuel _ r h
  rw [← rawChain_eq_iterate] at hm
  exact rawChain_ne_none_of_revisit raws edges i j x y hij hx hy hid m hm

/-- When the chain of current nodes never ends and every node carries `data`,
the push of the pass that follows `m` passes, `m` being the largest length of
an array, throws. -/
theorem whileLoopRaw_full (nodes : List Node) (edges : List Edge) (d m : Nat)
    (hm : m = maxArrayLength)
    (hne : ∀ n, (stateAfter nodes edges n).currentNode ≠ none) :
    getActivePipelineRaw (m + (d + 1)) (nodes.map Node.toRaw) edges = Outcome.rangeError := by
  have hroom : (initState nodes).pipeline.length + m ≤ maxArrayLength := by
    rw [hm]
    simp [initState]
  rw [getActivePipelineRaw_init, whileLoopRaw_add nodes edges (d + 1) m (initState nodes) hroom]
  have hst : (loopStep nodes edges)^[m] (initState nodes) = stateAfter nodes edges m := rfl
  rw [hst]
  generalize hS : stateAfter nodes edges m = S
  cases hc : S.currentNode with
  | none =>
    have := hne m
    rw [hS] at this
    exact absurd hc this
  | some z =>
    have hlen : S.pipeline.length = m := by
      have := (stateAfter_running nodes edges m z (by rw [hS]; exact hc)).2
      rw [hS] at this
      exact this
    have hraw : S.toRaw.currentNode = some z.toRaw := by
      simp [LoopState.toRaw, hc]
    have hfull : ¬ S.toRaw.pipeline.length < maxArrayLength := by
      show ¬ S.pipeline.length < maxArrayLength
      omega
    have hnode : z.toRaw.toNode? = some z := rfl
    unfold whileLoopRaw
    simp only [hraw, hnode, hfull, if_false]

/-- When the chain of current nodes never ends and every node carries `data`,
the loop is still running after every number of passes up to `2^32 - 1`, and
the next pass throws the `RangeError` of `pipeline.push`. -/
theorem getActivePipelineRaw_endless (nodes : List Node) (edges : List Edge)
    (hne : ∀ n, (stateAfter nodes edges n).currentNode ≠ none) :
    (∀ fuel, fuel ≤ maxArrayLength →
      getActivePipelineRaw fuel (nodes.map Node.toRaw) edges = Outcome.running) ∧
    (∀ fuel, maxArrayLength < fuel →
      getActivePipelineRaw fuel (nodes.map Node.toRaw) edges = Outcome.rangeError) := by
  constructor
  · intro fuel hfuel
    rw [getActivePipelineRaw_eq nodes edges fuel hfuel]
    cases hc : (stateAfter nodes edges fuel).currentNode with
    | none => exact absurd hc (hne fuel)
    | some z => rfl
  · intro fuel hfuel
    obtain ⟨m, hm⟩ : ∃ m, m = maxArrayLength := ⟨_, rfl⟩
    obtain ⟨d, rfl⟩ : ∃ d, fuel = m + (d + 1) := ⟨fuel - m - 1, by omega⟩
    exact whileLoopRaw_full nodes edges d m hm hne

/-- Claim C18. On a list of node objects that all carry `data` (an array, so
of at most `2^32 - 1` elements) whose chain of current nodes ends, the call
never throws: it returns one result `r` for every fuel from the end of the
chain on, and is still running before. The result has exactly one step per
reached node, in order: the node reached after `k` passes gives the step at
position `k`, built from it with index `k + 1`, and with empty parameters when
the node has none. -/
theorem getActivePipelineRaw_no_error (raws : List RawNode) (edges : List Edge) (n : Nat)
    (hdata : ∀ r ∈ raws, r.data ≠ none) (hlen : raws.length ≤ maxArrayLength)
    (hfinite : rawChain raws edges n = none) :
    ∃ r, (∀ fuel, n ≤ fuel → getActivePipelineRaw fuel raws edges = Outcome.returned r) ∧
      (∀ fuel, getActivePipelineRaw fuel raws edges = Outcome.running ∨
        getActivePipelineRaw fuel raws edges = Outcome.returned r) ∧
      (∀ k : Nat, rawChain raws edges k = none → r[k]? = none) ∧
      (∀ (k : Nat) (x : RawNode), rawChain raws edges k = some x →
        ∃ y s, x.toNode? = some y ∧ r[k]? = some s ∧ s = mkStep y (k + 1) ∧
          (y.data.parameters = Parameters.absent →
            s.data.parameters = Parameters.record [])) := by
  obtain ⟨nodes, rfl⟩ : ∃ nodes : List Node, nodes.map Node.toRaw = raws :=
    ⟨_, map_toRaw_filterMap raws hdata⟩
  rw [List.length_map] at hlen
  have hn : (stateAfter nodes edges n).currentNode = none := by
    have := rawChain_toRaw nodes edges n
    rw [hfinite] at this
    cases hc : (stateAfter nodes edges n).currentNode with
    | none => rfl
    | some c => simp [hc] at this
  have hm : (stateAfter nodes edges nodes.length).currentNode = none :=
    currentNode_none_of_finite nodes edges n hn
  -- the result, read after `nodes.length` passes
  have hget : ∀ fuel r, fuel ≤ maxArrayLength →
      getActivePipelineRaw fuel (nodes.map Node.toRaw) edges = Outcome.returned r →
      (stateAfter nodes edges fuel).currentNode = none ∧
        r = (stateAfter nodes edges fuel).pipeline := by
    intro fuel r hfuel h
    rw [getActivePipelineRaw_eq nodes edges fuel hfuel] at h
    cases hc : (stateAfter nodes edges fuel).currentNode with
    | none =>
      simp only [hc, Outcome.returned.injEq] at h
      exact ⟨rfl, h.symm⟩
    | some c => simp [hc] at h
  have hsame : ∀ a b, (stateAfter nodes edges a).currentNode = none →
      (stateAfter nodes edges b).currentNode = none →
      (stateAfter nodes edges a).pipeline = (stateAfter nodes edges b).pipeline := by
    intro a b ha hb
    rcases Nat.le_total a b with hle | hle
    · obtain ⟨d, rfl⟩ := Nat.exists_eq_add_of_le hle
      rw [stateAfter_of_none nodes edges a d ha]
    · obtain ⟨d, rfl⟩ := Nat.exists_eq_add_of_le hle
      rw [stateAfter_of_none nodes edges b d hb]
  have hret : getActivePipelineRaw nodes.length (nodes.map Node.toRaw) edges =
      Outcome.returned (stateAfter nodes edges nodes.length).pipeline := by
    rw [getActivePipelineRaw_eq nodes edges nodes.length hlen, hm]
  have hbig : ∀ fuel, nodes.length ≤ fuel →
      getActivePipelineRaw fuel (nodes.map Node.toRaw) edges =
        Outcome.returned (stateAfter nodes edges nodes.length).pipeline := by
    intro fuel hle
    obtain ⟨d, rfl⟩ := Nat.exists_eq_add_of_le hle
    exact whileLoopRaw_mono _ edges d nodes.length _ _ hret
  have hall : ∀ fuel, getActivePipelineRaw fuel (nodes.map Node.toRaw) edges = Outcome.running ∨
      getActivePipelineRaw fuel (nodes.map Node.toRaw) edges =
        Outcome.returned (stateAfter nodes edges nodes.length).pipeline := by
    intro fuel
    by_cases hle : nodes.length ≤ fuel
    · exact Or.inr (hbig fuel hle)
    · have hfuel : fuel ≤ maxArrayLength := by omega
      rw [getActivePipelineRaw_eq nodes edges fuel hfuel]
      cases hc : (stateAfter nodes edges fuel).currentNode with
      | none => exact Or.inr (by rw [hsame fuel nodes.length hc hm])
      | some c => exact Or.inl rfl
  refine ⟨(stateAfter nodes edges nodes.length).pipeline, ?_, hall, ?_, ?_⟩
  · intro fuel hle
    rcases hall fuel with h | h
    · by_cases hbigfuel : nodes.length ≤ fuel
      · exact hbig fuel hbigfuel
      · have hfuel : fuel ≤ maxArrayLength := by omega
        rw [getActivePipelineRaw_eq nodes edges fuel hfuel] at h
        obtain ⟨d, rfl⟩ := Nat.exists_eq_add_of_le hle
        rw [stateAfter_of_none nodes edges n d hn, hn] at h
        cases h
    · exact h
  · intro k hk
    have hck : (stateAfter nodes edges k).currentNode = none := by
      have := rawChain_toRaw nodes edges k
      rw [hk] at this
      cases hc : (stateAfter nodes edges k).currentNode with
      | none => rfl
      | some c => simp [hc] at this
    rw [stateAfter_pipeline_getElem?]
    split
    · rw [hck]; rfl
    · rfl
  · intro k x hk
    have hcx := rawChain_toRaw nodes edges k
    rw [hk] at hcx
    cases hc : (stateAfter nodes edges k).currentNode with
    | none => simp [hc] at hcx
    | some y =>
      simp only [hc, Option.map_some', Option.some.injEq] at hcx
      subst hcx
      have hklt : k < nodes.length := by
        by_contra hge
        obtain ⟨d, hd⟩ := Nat.exists_eq_add_of_le (Nat.le_of_not_lt hge)
        rw [hd, stateAfter_of_none nodes edges nodes.length d hm, hm] at hc
        cases hc
      refine ⟨y, mkStep y (k + 1), rfl, ?_, rfl, ?_⟩
      · rw [stateAfter_pipeline_getElem?, if_pos hklt, hc]
        rfl
      · intro habs
        simp only [mkStep, habs]
        rfl

/-- Witness of claim C18: the three sample nodes, the third without
parameters, chained by the sample edges; the chain has ended after 3 passes. -/
theorem getActivePipelineRaw_no_error_witness :
    rawChain (chainNodes.map Node.toRaw) chainEdges 2
      = some (Node.toRaw (sampleNode "3" Parameters.absent)) ∧
    ∃ r, (∀ fuel, 3 ≤ fuel →
        getActivePipelineRaw fuel (chainNodes.map Node.toRaw) chainEdges = Outcome.returned r) ∧
      (∀ fuel, getActivePipelineRaw fuel (chainNodes.map Node.toRaw) chainEdges
          = Outcome.running ∨
        getActivePipelineRaw fuel (chainNodes.map Node.toRaw) chainEdges
          = Outcome.returned r) ∧
      (∀ k : Nat, rawChain (chainNodes.map Node.toRaw) chainEdges k = none → r[k]? = none) ∧
      (∀ (k : Nat) (x : RawNode), rawChain (chainNodes.map Node.toRaw) chainEdges k = some x →
        ∃ y s, x.toNode? = some y ∧ r[k]? = some s ∧ s = mkStep y (k + 1) ∧
          (y.data.parameters = Parameters.absent →
            s.data.parameters = Parameters.record [])) :=
  ⟨rfl, getActivePipelineRaw_no_error (chainNodes.map Node.toRaw) chainEdges 3
    (by simp [chainNodes, sampleNode, Node.toRaw]) (by decide) rfl⟩

/-- Claim C8, as amended. When the chain of current nodes comes back to the id
of a node it has visited, the call returns no result, whatever the fuel. When
moreover every node carries `data`, the loop makes exactly `2^32 - 1` passes,
one step pushed per pass (it is still running after every number of passes up
to that one), and the next `pipeline.push` throws a `RangeError`. -/
theorem getActivePipelineRaw_cycle (raws : List RawNode) (edges : List Edge) (i j : Nat)
    (x y : RawNode) (hij : i < j) (hx : rawChain raws edges i = some x)
    (hy : rawChain raws edges j = some y) (hid : x.id = y.id) :
    (∀ fuel r, getActivePipelineRaw fuel raws edges ≠ Outcome.returned r) ∧
    ((∀ r ∈ raws, r.data ≠ none) →
      (∀ fuel, fuel ≤ maxArrayLength →
        getActivePipelineRaw fuel raws edges = Outcome.running) ∧
      (∀ fuel, maxArrayLength < fuel →
        getActivePipelineRaw fuel raws edges = Outcome.rangeError)) := by
  refine ⟨getActivePipelineRaw_never_returns raws edges i j x y hij hx hy hid, ?_⟩
  intro hdata
  have hne := rawChain_ne_none_of_revisit raws edges i j x y hij hx hy hid
  obtain ⟨nodes, rfl⟩ : ∃ nodes : List Node, nodes.map Node.toRaw = raws :=
    ⟨_, map_toRaw_filterMap raws hdata⟩
  apply getActivePipelineRaw_endless nodes edges
  intro n hc
  apply hne n
  rw [rawChain_toRaw, hc]
  rfl

/-- Witness of claim C8: the single node "1", carrying `data`, with an edge to
itself. -/
theorem getActivePipelineRaw_cycle_witness :
    (∀ fuel r, getActivePipelineRaw fuel ([sampleNode "1" Parameters.absent].map Node.toRaw)
      selfLoopEdges ≠ Outcome.returned r) ∧
    ((∀ r ∈ ([sampleNode "1" Parameters.absent].map Node.toRaw), r.data ≠ none) →
      (∀ fuel, fuel ≤ maxArrayLength →
        getActivePipelineRaw fuel ([sampleNode "1" Parameters.absent].map Node.toRaw) selfLoopEdges
          = Outcome.running) ∧
      (∀ fuel, maxArrayLength < fuel →
        getActivePipelineRaw fuel ([sampleNode "1" Parameters.absent].map Node.toRaw) selfLoopEdges
          = Outcome.rangeError)) :=
  getActivePipelineRaw_cycle ([sampleNode "1" Parameters.absent].map Node.toRaw) selfLoopEdges 0 1
    (Node.toRaw (sampleNode "1" Parameters.absent))
    (Node.toRaw (sampleNode "1" Parameters.absent)) (by decide) rfl rfl rfl

/-- Claim C8 as stated fails: it says that on a graph with a cycle the loop
makes more than `n` passes for every `n`. On the graph of the claim, node "1"
(without `data`) with an edge to itself, the first pass throws a `TypeError`;
and when the node carries `data` the loop is not running any more after
`2^32` passes: the call has thrown a `RangeError`. -/
theorem getActivePipelineRaw_cycle_counterexample :
    getActivePipelineRaw 1 [⟨"1", "", none, ⟨0, 0⟩⟩] selfLoopEdges = Outcome.typeError ∧
    ¬ (∀ n, getActivePipelineRaw n [⟨"1", "", none, ⟨0, 0⟩⟩] selfLoopEdges = Outcome.running) ∧
    getActivePipelineRaw (maxArrayLength + 1) ([sampleNode "1" Parameters.absent].map Node.toRaw)
      selfLoopEdges = Outcome.rangeError ∧
    ¬ (∀ n, getActivePipelineRaw n ([sampleNode "1" Parameters.absent].map Node.toRaw)
      selfLoopEdges = Outcome.running) := by
  have hne : ∀ n, (stateAfter [sampleNode "1" Parameters.absent] selfLoopEdges n).currentNode
      ≠ none :=
    currentNode_ne_none_of_revisit [sampleNode "1" Parameters.absent] selfLoopEdges 0 1
      (sampleNode "1" Parameters.absent) (sampleNode "1" Parameters.absent) (by decide)
      rfl rfl rfl
  have hrange := (getActivePipelineRaw_endless [sampleNode "1" Parameters.absent]
    selfLoopEdges hne).2 (maxArrayLength + 1) (Nat.lt_succ_self _)
  refine ⟨rfl, ?_, hrange, ?_⟩
  · intro h
    have h1 := h 1
    have h2 : getActivePipelineRaw 1 [⟨"1", "", none, ⟨0, 0⟩⟩] selfLoopEdges
        = Outcome.typeError := rfl
    rw [h2] at h1
    cases h1
  · intro h
    have h1 := h (maxArrayLength + 1)
    rw [hrange] at h1
    cases h1

/-! ## Claims on the service call and on termination -/

/-- Claim C19. When the request is rejected with status 404 or 400 the call
returns the success result with the project id, no fields and count 0; when it
is rejected otherwise (another status, or no response) the call throws; when
the request succeeds the count is the number of fields returned. -/
theorem getProjectStandardizedFields_cases (authApiGet : String → ApiResponse)
    (projectId : String) (fieldType : Option String) :
    (∀ error, authApiGet (standardizedFieldsUrl projectId fieldType) = ApiResponse.rejected error →
      (error.status = some 404 ∨ error.status = some 400) →
      ∃ r, getProjectStandardizedFields authApiGet projectId fieldType = Except.ok r ∧
        r.project_id = projectId ∧ r.standardized_fields = [] ∧ r.total_count = 0 ∧
        r.success = true) ∧
    (∀ error, authApiGet (standardizedFieldsUrl projectId fieldType) = ApiResponse.rejected error →
      error.status ≠ some 404 → error.status ≠ some 400 →
      ∃ msg, getProjectStandardizedFields authApiGet projectId fieldType = Except.error msg) ∧
    (∀ data, authApiGet (standardizedFieldsUrl projectId fieldType) = ApiResponse.resolved data →
      ∃ r, getProjectStandardizedFields authApiGet projectId fieldType = Except.ok r ∧
        r.project_id = projectId ∧ r.standardized_fields = data.getD [] ∧
        r.total_count = r.standardized_fields.length ∧ r.success = true) := by
  refine ⟨?_, ?_, ?_⟩
  · intro error he hs
    simp only [getProjectStandardizedFields, he, if_pos hs]
    exact ⟨_, rfl, rfl, rfl, rfl, rfl⟩
  · intro error he h1 h2
    have hs : ¬ (error.status = some 404 ∨ error.status = some 400) := by
      rintro (h | h)
      · exact h1 h
      · exact h2 h
    simp only [getProjectStandardizedFields, he, if_neg hs]
    exact ⟨_, rfl⟩
  · intro data he
    simp only [getProjectStandardizedFields, he]
    exact ⟨_, rfl, rfl, rfl, rfl, rfl⟩

/-- Witness of claim C19: a request rejected with status 404. -/
theorem getProjectStandardizedFields_cases_witness :
    ∃ r, getProjectStandardizedFields
        (fun _ => ApiResponse.rejected ⟨some 404, none, "Request failed"⟩) "7" none
        = Except.ok r ∧
      r.project_id = "7" ∧ r.standardized_fields = [] ∧ r.total_count = 0 ∧ r.success = true :=
  (getProjectStandardizedFields_cases
    (fun _ => ApiResponse.rejected ⟨some 404, none, "Request failed"⟩) "7" none).1
    ⟨some 404, none, "Request failed"⟩ rfl (Or.inl rfl)

/-- Claim C20. When the chain of current nodes never has the same node id
twice, the loop is over after at most as many passes as there are nodes: the
call returns, for every fuel from the number of nodes on, a result with at
most that many steps. -/
theorem getActivePipeline_terminates_without_revisit (nodes : List Node) (edges : List Edge)
    (hnorep : ∀ i j x y, i < j → (stateAfter nodes edges i).currentNode = some x →
      (stateAfter nodes edges j).currentNode = some y → x.id ≠ y.id) :
    ∃ r, (∀ fuel, nodes.length ≤ fuel → getActivePipeline fuel nodes edges = some r) ∧
      r.length ≤ nodes.length := by
  have hend : (stateAfter nodes edges nodes.length).currentNode = none := by
    by_contra hne
    have hsome : ∀ k, k ≤ nodes.length →
        ∃ x, (stateAfter nodes edges k).currentNode = some x := by
      intro k hk
      cases hc : (stateAfter nodes edges k).currentNode with
      | some x => exact ⟨x, rfl⟩
      | none =>
        obtain ⟨d, hd⟩ := Nat.exists_eq_add_of_le hk
        rw [hd, stateAfter_of_none nodes edges k d hc] at hne
        exact absurd hc hne
    let f : Nat → String := fun k => (((stateAfter nodes edges k).currentNode).map Node.id).getD ""
    have hnodup : ((List.range (nodes.length + 1)).map f).Nodup := by
      apply List.Nodup.map_on _ (List.nodup_range _)
      intro a ha b hb hab
      obtain ⟨x, hx⟩ := hsome a (by have := List.mem_range.1 ha; omega)
      obtain ⟨y, hy⟩ := hsome b (by have := List.mem_range.1 hb; omega)
      have hxy : x.id = y.id := by simpa [f, hx, hy] using hab
      rcases Nat.lt_trichotomy a b with hlt | heq | hgt
      · exact absurd hxy (hnorep a b x y hlt hx hy)
      · exact heq
      · exact absurd hxy.symm (hnorep b a y x hgt hy hx)
    have hsub : (List.range (nodes.length + 1)).map f ⊆ nodes.map Node.id := by
      intro s hs
      obtain ⟨k, hk, rfl⟩ := List.mem_map.1 hs
      obtain ⟨x, hx⟩ := hsome k (by have := List.mem_range.1 hk; omega)
      have : f k = x.id := by simp [f, hx]
      rw [this]
      exact List.mem_map.2 ⟨x, currentNode_mem nodes edges k x hx, rfl⟩
    have hlen := (List.Nodup.subperm hnodup hsub).length_le
    simp at hlen
  refine ⟨(stateAfter nodes edges nodes.length).pipeline, ?_,
    stateAfter_pipeline_length_le nodes edges nodes.length⟩
  intro fuel hfuel
  apply getActivePipeline_mono nodes edges nodes.length fuel _ _ hfuel
  rw [getActivePipeline_eq_stateAfter, hend]

/-- Witness of claim C20: the chain "1", "2", "3". -/
theorem getActivePipeline_terminates_without_revisit_witness :
    ∃ r, (∀ fuel, chainNodes.length ≤ fuel →
        getActivePipeline fuel chainNodes chainEdges = some r) ∧
      r.length ≤ chainNodes.length :=
  getActivePipeline_terminates_without_revisit chainNodes chainEdges (by
    intro i j x y hij hx hy
    have h3 : (stateAfter chainNodes chainEdges 3).currentNode = none := rfl
    have hj : j < 3 := by
      by_contra hge
      obtain ⟨d, hd⟩ := Nat.exists_eq_add_of_le (Nat.le_of_not_lt hge)
      rw [hd, stateAfter_of_none chainNodes chainEdges 3 d h3, h3] at hy
      cases hy
    have h0 : (stateAfter chainNodes chainEdges 0).currentNode
        = some (sampleNode "1" (Parameters.list [])) := rfl
    have h1 : (stateAfter chainNodes chainEdges 1).currentNode
        = some (sampleNode "2" (Parameters.list [])) := rfl
    have h2 : (stateAfter chainNodes chainEdges 2).currentNode
        = some (sampleNode "3" Parameters.absent) := rfl
    interval_cases j <;> interval_cases i <;> simp_all [sampleNode])

/-! ## Lemmas on array indices and on the sidebar -/

theorem digitChar_isDigit (k : Nat) (hk : k < 10) : (Nat.digitChar k).isDigit = true := by
  interval_cases k <;> rfl

theorem toDigitsCore_digits (fuel : Nat) :
    ∀ n ds, ∃ x, Nat.toDigitsCore 10 (fuel + 1) n ds = x ++ ds ∧ x ≠ [] ∧
      ∀ c ∈ x, c.isDigit = true := by
  induction fuel with
  | zero =>
    intro n ds
    refine ⟨[Nat.digitChar (n % 10)], ?_, by simp, ?_⟩
    · unfold Nat.toDigitsCore
      by_cases h0 : n / 10 = 0
      · simp [h0]
      · simp [h0, Nat.toDigitsCore]
    · intro c hc
      rw [List.mem_singleton.1 hc]
      exact digitChar_isDigit _ (Nat.mod_lt _ (by decide))
  | succ fuel ih =>
    intro n ds
    unfold Nat.toDigitsCore
    by_cases h0 : n / 10 = 0
    · refine ⟨[Nat.digitChar (n % 10)], by simp [h0], by simp, ?_⟩
      intro c hc
      rw [List.mem_singleton.1 hc]
      exact digitChar_isDigit _ (Nat.mod_lt _ (by decide))
    · obtain ⟨x, hx, _, hall⟩ := ih (n / 10) (Nat.digitChar (n % 10) :: ds)
      refine ⟨x ++ [Nat.digitChar (n % 10)], by simp [h0, hx], by simp, ?_⟩
      intro c hc
      rcases List.mem_append.1 hc with h | h
      · exact hall c h
      · rw [List.mem_singleton.1 h]
        exact digitChar_isDigit _ (Nat.mod_lt _ (by decide))

/-- The decimal numeral of a number is a non-empty string of digits. -/
theorem isDecimalDigits_toString (n : Nat) : isDecimalDigits (toString n).toList = true := by
  obtain ⟨x, hx, hne, hall⟩ := toDigitsCore_digits n n []
  simp only [List.append_nil] at hx
  have : (toString n).toList = x := by
    show (Nat.repr n).toList = x
    simp only [Nat.repr, Nat.toDigits, hx, List.asString, String.toList]
  rw [this]
  cases x with
  | nil => exact absurd rfl hne
  | cons c t =>
    simp only [isDecimalDigits, List.isEmpty_cons, Bool.not_false, Bool.true_and,
      List.all_eq_true]
    exact hall

theorem foldl_of_not_isNaN (l acc : List (String × JVal)) (h : ∀ e ∈ l, isNaN e.1 = false) :
    l.foldl (fun acc e => if !isNaN e.1 then acc else objSet acc e.1 e.2) acc = acc := by
  induction l generalizing acc with
  | nil => rfl
  | cons a rest ih =>
    rw [List.foldl_cons]
    simp only [h a (List.mem_cons_self _ _), Bool.not_false, if_true]
    exact ih acc (fun e he => h e (List.mem_cons_of_mem _ he))

theorem isNaN_index_entries (items : List JVal) :
    ∀ e ∈ objectEntries (Parameters.list items), isNaN e.1 = false := by
  intro e he
  simp only [objectEntries, List.mem_map] at he
  obtain ⟨p, _, rfl⟩ := he
  exact isNaN_of_digits _ (isDecimalDigits_toString p.1)

/-- An array as parameters is filtered to the empty mapping. -/
theorem filteredParameters_list (items : List JVal) :
    filteredParameters (Parameters.list items) = [] :=
  foldl_of_not_isNaN _ [] (isNaN_index_entries items)

theorem replaceValue_append_of_not_mem (idx rest : List (String × JVal)) (name : String)
    (v : JVal) (h : ∀ e ∈ idx, e.1 ≠ name) :
    replaceValue name v (idx ++ rest) = idx ++ replaceValue name v rest := by
  induction idx with
  | nil => rfl
  | cons a t ih =>
    obtain ⟨k, w⟩ := a
    have ha : k ≠ name := h (k, w) (List.mem_cons_self _ _)
    have ih2 := ih (fun e he => h e (List.mem_cons_of_mem _ he))
    show replaceValue name v ((k, w) :: (t ++ rest)) = (k, w) :: (t ++ replaceValue name v rest)
    simp only [replaceValue, ha, if_false, ih2]

theorem objSet_append_of_isNaN (idx rest : List (String × JVal)) (name : String) (v : JVal)
    (hidx : ∀ e ∈ idx, isNaN e.1 = false) (hname : isNaN name = true) :
    objSet (idx ++ rest) name v = idx ++ objSet rest name v := by
  have hne : ∀ e ∈ idx, e.1 ≠ name := by
    intro e he heq
    have := hidx e he
    rw [heq, hname] at this
    cases this
  have hany : idx.any (fun e => e.1 == name) = false := by
    rw [List.any_eq_false]
    intro e he
    simpa using hne e he
  unfold objSet
  rw [List.any_append, hany, Bool.false_or]
  by_cases hr : rest.any (fun e => e.1 == name) = true
  · simp only [hr, if_true]
    exact replaceValue_append_of_not_mem idx rest name v hne
  · simp only [hr, if_false, arrayIndex?_of_isNaN name hname, Bool.false_eq_true]
    rw [List.append_assoc]

theorem foldl_objSet_append (changes idx rest : List (String × JVal))
    (hidx : ∀ e ∈ idx, isNaN e.1 = false) (hnames : ∀ c ∈ changes, isNaN c.1 = true) :
    changes.foldl (fun acc c => objSet acc c.1 c.2) (idx ++ rest) =
      idx ++ changes.foldl (fun acc c => objSet acc c.1 c.2) rest := by
  induction changes generalizing rest with
  | nil => rfl
  | cons c t ih =>
    simp only [List.foldl_cons]
    rw [objSet_append_of_isNaN idx rest c.1 c.2 hidx (hnames c (List.mem_cons_self _ _))]
    exact ih _ (fun d hd => hnames d (List.mem_cons_of_mem _ hd))

theorem replaceValue_keys (name : String) (v : JVal) (acc : List (String × JVal)) :
    (replaceValue name v acc).map Prod.fst = acc.map Prod.fst := by
  induction acc with
  | nil => rfl
  | cons a t ih =>
    by_cases h : a.1 = name
    · simp [replaceValue, h]
    · simp [replaceValue, h, ih]

theorem objSet_keys_nodup (acc : List (String × JVal)) (name : String) (v : JVal)
    (hname : isNaN name = true) (hnodup : (acc.map Prod.fst).Nodup) :
    ((objSet acc name v).map Prod.fst).Nodup := by
  unfold objSet
  by_cases hr : acc.any (fun e => e.1 == name) = true
  · simp only [hr, if_true]
    rw [replaceValue_keys]
    exact hnodup
  · simp only [hr, if_false, arrayIndex?_of_isNaN name hname, Bool.false_eq_true]
    rw [List.map_append, List.map_cons, List.map_nil]
    apply List.Nodup.append hnodup (List.nodup_singleton _)
    intro k hk hk2
    rw [List.mem_singleton] at hk2
    subst hk2
    apply hr
    obtain ⟨e, he, hek⟩ := List.mem_map.1 hk
    exact List.any_eq_true.2 ⟨e, he, by simp [hek]⟩

theorem objLiteral_keys (changes : List (String × JVal))
    (hnames : ∀ c ∈ changes, isNaN c.1 = true) (acc : List (String × JVal))
    (hacc : ∀ e ∈ acc, isNaN e.1 = true) (hnodup : (acc.map Prod.fst).Nodup) :
    (∀ e ∈ changes.foldl (fun acc c => objSet acc c.1 c.2) acc, isNaN e.1 = true) ∧
      ((changes.foldl (fun acc c => objSet acc c.1 c.2) acc).map Prod.fst).Nodup := by
  induction changes generalizing acc with
  | nil => exact ⟨hacc, hnodup⟩
  | cons c t ih =>
    have hc := hnames c (List.mem_cons_self _ _)
    simp only [List.foldl_cons]
    apply ih (fun d hd => hnames d (List.mem_cons_of_mem _ hd))
    · intro e he
      rcases mem_objSet acc c.1 c.2 e he with h | h
      · rw [h]; exact hc
      · exact hacc e h
    · exact objSet_keys_nodup acc c.1 c.2 hc hnodup

theorem objLiteral_of_nodup (changes acc : List (String × JVal))
    (hnames : ∀ c ∈ changes, isNaN c.1 = true) (hnodup : (changes.map Prod.fst).Nodup)
    (hdisj : ∀ c ∈ changes, ∀ a ∈ acc, a.1 ≠ c.1) :
    changes.foldl (fun acc c => objSet acc c.1 c.2) acc = acc ++ changes := by
  induction changes generalizing acc with
  | nil => simp
  | cons c t ih =>
    rw [List.map_cons, List.nodup_cons] at hnodup
    simp only [List.foldl_cons]
    rw [objSet_of_fresh acc c.1 c.2 (hnames c (List.mem_cons_self _ _))
      (fun e he => hdisj c (List.mem_cons_self _ _) e he)]
    rw [ih _ (fun d hd => hnames d (List.mem_cons_of_mem _ hd)) hnodup.2]
    · simp
    · intro d hd a ha
      rcases List.mem_append.1 ha with h | h
      · exact hdisj d (List.mem_cons_of_mem _ hd) a h
      · rw [List.mem_singleton.1 h]
        intro heq
        exact hnodup.1 (List.mem_map.2 ⟨d, hd, heq.symm⟩)

theorem objectEntries_foldl_handleChange (changes : List (String × JVal)) (p : Parameters) :
    objectEntries (changes.foldl (fun s c => handleChange s c.1 c.2) p) =
      changes.foldl (fun acc c => objSet acc c.1 c.2) (objectEntries p) := by
  induction changes generalizing p with
  | nil => rfl
  | cons c t ih =>
    simp only [List.foldl_cons]
    rw [ih]
    rfl

/-- After the sidebar has loaded an array of parameter entries and the user
has set values under names that are not numbers, filtering the sidebar state
leaves exactly the values set. -/
theorem filteredParameters_after_changes (specs : List JVal) (changes : List (String × JVal))
    (hnames : ∀ c ∈ changes, isNaN c.1 = true) :
    filteredParameters
        (changes.foldl (fun s c => handleChange s c.1 c.2) (Parameters.list specs)) =
      objLiteral changes := by
  have hentries := objectEntries_foldl_handleChange changes (Parameters.list specs)
  have hsplit := foldl_objSet_append changes (objectEntries (Parameters.list specs)) []
    (isNaN_index_entries specs) hnames
  rw [List.append_nil] at hsplit
  rw [hsplit] at hentries
  obtain ⟨hnan, hnodup⟩ := objLiteral_keys changes hnames [] (by simp) (by simp)
  unfold filteredParameters
  rw [hentries, List.foldl_append, foldl_of_not_isNaN _ [] (isNaN_index_entries specs),
    foldl_eq_filter _ [] hnodup (by simp), List.nil_append]
  unfold objLiteral
  apply List.filter_eq_self.2
  intro e he
  exact hnan e he

/-! ## Claims on ids, guards and the sidebar -/

/-- Claim C21. There is a node list with pairwise distinct ids, the ids "1" and
"3", on which `onDrop` appends a node whose id (the numeral of the length plus
one, "3") is already the id of a node of the list. -/
theorem onDrop_id_collision :
    (gapNodes.map Node.id).Nodup ∧ gapNodes.map Node.id = ["1", "3"] ∧
    ∀ (availableNodes : List CatalogEntry) (t : String) (p : Position),
      ∃ newNode, onDrop availableNodes gapNodes t p gapNodes = gapNodes ++ [newNode] ∧
        newNode.id = "3" ∧ newNode.id ∈ gapNodes.map Node.id :=
  ⟨by decide, rfl, fun _ _ _ => ⟨_, rfl, rfl, by show "3" ∈ ["1", "3"]; decide⟩⟩

/-- Claim C22. `AdminRoute` renders the wrapped component exactly when local
storage holds a non-empty access token and the role of the auth context is
"admin"; in every other case it renders `<Navigate to="/" />`. -/
theorem AdminRoute_iff (role accessToken : Option String) (component : String) :
    (AdminRoute role accessToken component = View.page component ↔
      (∃ t, accessToken = some t ∧ t ≠ "") ∧ role = some "admin") ∧
    (¬ ((∃ t, accessToken = some t ∧ t ≠ "") ∧ role = some "admin") →
      AdminRoute role accessToken component = View.navigate "/") := by
  have hauth : isAuthenticated accessToken = true ↔ ∃ t, accessToken = some t ∧ t ≠ "" := by
    cases accessToken with
    | none => simp [isAuthenticated]
    | some t => simp [isAuthenticated]
  by_cases h1 : isAuthenticated accessToken = true
  · by_cases h2 : role = some "admin"
    · have hall : (∃ t, accessToken = some t ∧ t ≠ "") ∧ role = some "admin" :=
        ⟨hauth.1 h1, h2⟩
      refine ⟨⟨fun _ => hall, fun _ => ?_⟩, fun hn => absurd hall hn⟩
      simp [AdminRoute, h1, h2]
    · have hnav : AdminRoute role accessToken component = View.navigate "/" := by
        simp [AdminRoute, h1, h2]
      refine ⟨⟨fun h => ?_, fun h => absurd h.2 h2⟩, fun _ => hnav⟩
      rw [hnav] at h
      cases h
  · have hnav : AdminRoute role accessToken component = View.navigate "/" := by
      simp [AdminRoute, h1]
    refine ⟨⟨fun h => ?_, fun h => absurd (hauth.2 h.1) h1⟩, fun _ => hnav⟩
    rw [hnav] at h
    cases h

/-- Witness of claim C22: a token with the role "user" is sent to "/". -/
theorem AdminRoute_iff_witness :
    AdminRoute (initialRole (some "user")) (some "token") "AdminDashboard" = View.navigate "/" :=
  (AdminRoute_iff (initialRole (some "user")) (some "token") "AdminDashboard").2
    (by intro h; exact absurd h.2 (by decide))

/-- After a save through the sidebar the parameters are a plain object, and
the panel of a node not labelled "Select files" throws on it. -/
theorem renderParameters_record (selectedNode : Node) (entries : List (String × JVal))
    (hlabel : selectedNode.data.label ≠ "Select files")
    (hparams : selectedNode.data.parameters = Parameters.record entries) :
    renderParameters selectedNode =
      Except.error "TypeError: selectedNode.data.parameters.map is not a function" := by
  simp [renderParameters, hlabel, hparams]

/-- Claim C23, evaluated where it fails: the node "2" dropped from the
"normalize" entry renders its panel; after the user types "zscore" in the field
"method" and saves, the node holds the mapping of the sidebar, and rendering
the panel of the node selected again throws a `TypeError`. -/
theorem renderParameters_throws_after_save :
    sampleState.nodes[1]? = some droppedNode ∧
    (∃ fields, renderParameters droppedNode = Except.ok fields) ∧
    objectEntries editedParameters =
      [("0", JVal.obj [("name", JVal.str "method")]), ("method", JVal.str "zscore")] ∧
    ∃ saved, (handleSave (sampleState.onNodeClick droppedNode) droppedNode
        editedParameters).nodes[1]? = some saved ∧
      saved.id = "2" ∧ saved.data.parameters = editedParameters ∧
      renderParameters saved =
        Except.error "TypeError: selectedNode.data.parameters.map is not a function" :=
  ⟨rfl, ⟨_, rfl⟩, rfl,
    { droppedNode with data := { droppedNode.data with parameters := editedParameters } },
    rfl, rfl, rfl, rfl⟩

/-- Claim C24. A node whose parameters are still an array (the catalog's
parameter list) gives a step with empty parameters, and the seed graph
resolves to exactly one step, of type `select_files`, with index 1 and empty
parameters. -/
theorem getActivePipeline_unsaved_parameters (x : Node) (specs : List JVal) (i : Nat)
    (h : x.data.parameters = Parameters.list specs) :
    (mkStep x i).data.parameters = Parameters.record [] ∧
    (∀ (nodes : List Node) (edges : List Edge) (n : Nat),
      (stateAfter nodes edges n).currentNode = some x →
      ∃ s, (stateAfter nodes edges (n + 1)).pipeline =
          (stateAfter nodes edges n).pipeline ++ [s] ∧
        s.id = x.id ∧ s.data.parameters = Parameters.record []) ∧
    ∃ s, (∀ fuel, 1 ≤ fuel → getActivePipeline fuel initialNodes initialEdges = some [s]) ∧
      s.id = "1" ∧ s.type = "select_files" ∧ s.index = 1 ∧
      s.data.parameters = Parameters.record [] := by
  have hstep : ∀ j, (mkStep x j).data.parameters = Parameters.record [] := by
    intro j
    simp only [mkStep, h, filteredParameters_list]
  refine ⟨hstep i, ?_, ?_⟩
  · intro nodes edges n hcur
    refine ⟨mkStep x (n + 1), ?_, rfl, hstep (n + 1)⟩
    rw [stateAfter_succ_pipeline, hcur]
    rfl
  · refine ⟨(stepsFrom 1 initialNodes).head (by simp [stepsFrom, initialNodes]), ?_,
      rfl, rfl, rfl, rfl⟩
    intro fuel hfuel
    exact getActivePipeline_mono initialNodes initialEdges 1 fuel _ rfl hfuel

/-- Witness of claim C24: the node dropped from the "normalize" entry. -/
theorem getActivePipeline_unsaved_parameters_witness :
    (mkStep droppedNode 2).data.parameters = Parameters.record [] :=
  (getActivePipeline_unsaved_parameters droppedNode [JVal.obj [("name", JVal.str "method")]] 2
    rfl).1

/-- Where the round trip through the sidebar holds. For a node whose
parameters are the parameter list of its catalog entry: after the sidebar has
loaded them, the user has set the values `changes` (name and value, in order)
under names for which `isNaN` is true, and the save has stored the sidebar
state in the node, the step of that node has as parameters exactly the mapping
written `{p1: v1, ..., pk: vk}`, which is the list of the pairs itself when the
names are distinct. -/
theorem sidebar_round_trip (n : Node) (specs : List JVal) (changes : List (String × JVal))
    (i : Nat) (hparams : n.data.parameters = Parameters.list specs)
    (hnames : ∀ c ∈ changes, isNaN c.1 = true) :
    ∃ m, handleSaveParameters n.id
        (changes.foldl (fun s c => handleChange s c.1 c.2) (sidebarLoad n)) [n] = [m] ∧
      m.id = n.id ∧
      (mkStep m i).data.parameters = Parameters.record (objLiteral changes) ∧
      ((changes.map Prod.fst).Nodup → objLiteral changes = changes) := by
  have hload : sidebarLoad n = Parameters.list specs := by
    simp [sidebarLoad, hparams]
  refine ⟨⟨n.id, n.type, ⟨n.data.label,
    changes.foldl (fun s c => handleChange s c.1 c.2) (sidebarLoad n)⟩, n.position⟩,
    ?_, rfl, ?_, ?_⟩
  · simp [handleSaveParameters]
  · simp only [mkStep, hload, filteredParameters_after_changes specs changes hnames]
  · intro hnodup
    have := objLiteral_of_nodup changes [] hnames hnodup (by simp)
    simpa [objLiteral] using this

/-- Claim C25, evaluated where it fails: the node "2" is dropped from a
catalog entry with the parameters "", "Infinity", "1.5" and "method", none of
them a string of digits; the user types a value in each field and saves; the
node then holds all four values, but the step that `getActivePipeline` returns
for it has the key "method" only. -/
theorem sidebar_round_trip_drops_names :
    onDrop oddCatalog initialNodes "scale" { x := 10, y := 20 } initialNodes
      = initialNodes ++ [oddNode] ∧
    oddChanges.all (fun c => !isDecimalDigits c.1.toList) = true ∧
    objectEntries oddParameters =
      [("0", JVal.obj [("name", JVal.str "")]), ("1", JVal.obj [("name", JVal.str "Infinity")]),
       ("2", JVal.obj [("name", JVal.str "1.5")]), ("3", JVal.obj [("name", JVal.str "method")]),
       ("", JVal.str "a"), ("Infinity", JVal.str "b"), ("1.5", JVal.str "c"),
       ("method", JVal.str "zscore")] ∧
    ∃ first second,
      getActivePipeline 2 (handleSaveParameters oddNode.id oddParameters (initialNodes ++ [oddNode]))
        [Edge.mk "1" "2"] = some [first, second] ∧
      second.id = "2" ∧
      second.data.parameters = Parameters.record [("method", JVal.str "zscore")] :=
  ⟨rfl, by decide, rfl, _, _, rfl, rfl, rfl⟩

/-! ## Claims on the shape of the result -/

theorem edge_of_nextNode (nodes : List Node) (edges : List Edge) (x y : Node)
    (h : nextNode nodes edges x = some y) :
    ∃ e ∈ edges, e.source = x.id ∧ e.target = y.id := by
  unfold nextNode at h
  cases ht : mapGet (edgeMap edges) x.id with
  | none => simp [ht] at h
  | some t =>
    simp only [ht] at h
    have hy := (mapGet_nodeMap_mem nodes t y h).2
    have hmem := mapGet_newMap_mem _ x.id t ht
    obtain ⟨e, he, heq⟩ := List.mem_map.1 hmem
    simp only [Prod.mk.injEq] at heq
    exact ⟨e, he, heq.1, by rw [heq.2, hy]⟩

/-- Claim C26. In a result of `getActivePipeline` the first step has id "1",
the step at position `k` (counted from 0) has index `k + 1`, two consecutive
steps are joined by an edge of the edge list, and so every step is a node of
the list that the edges reach from "1". -/
theorem getActivePipeline_follows_edges (nodes : List Node) (edges : List Edge) (fuel : Nat)
    (r : List Step) (h : getActivePipeline fuel nodes edges = some r) :
    (∀ s, r[0]? = some s → s.id = "1") ∧
    (∀ (k : Nat) (s : Step), r[k]? = some s → s.index = k + 1) ∧
    (∀ (k : Nat) (s t : Step), r[k]? = some s → r[k + 1]? = some t →
      ∃ e ∈ edges, e.source = s.id ∧ e.target = t.id) ∧
    (∀ s ∈ r, (∃ x ∈ nodes, x.id = s.id) ∧
      Relation.ReflTransGen (fun a b => ∃ e ∈ edges, e.source = a ∧ e.target = b) "1" s.id) := by
  have hfirst : ∀ s, r[0]? = some s → s.id = "1" := by
    intro s hs
    obtain ⟨x, hx, hsx, _⟩ := getActivePipeline_getElem?_succ nodes edges fuel r h 0 s hs
    rw [hsx]
    exact (mapGet_nodeMap_mem nodes "1" x hx).2
  have hedge : ∀ (k : Nat) (s t : Step), r[k]? = some s → r[k + 1]? = some t →
      ∃ e ∈ edges, e.source = s.id ∧ e.target = t.id := by
    intro k s t hs ht
    obtain ⟨x, _, hsx, hsucc⟩ := getActivePipeline_getElem?_succ nodes edges fuel r h k s hs
    rw [ht] at hsucc
    cases hy : nextNode nodes edges x with
    | none => simp [hy] at hsucc
    | some y =>
      simp only [hy, Option.map_some', Option.some.injEq] at hsucc
      obtain ⟨e, he, h1, h2⟩ := edge_of_nextNode nodes edges x y hy
      exact ⟨e, he, by rw [hsx]; exact h1, by rw [hsucc]; exact h2⟩
  have hreach : ∀ (k : Nat) (s : Step), r[k]? = some s →
      Relation.ReflTransGen (fun a b => ∃ e ∈ edges, e.source = a ∧ e.target = b) "1" s.id := by
    intro k
    induction k with
    | zero =>
      intro s hs
      rw [hfirst s hs]
    | succ k ih =>
      intro t ht
      have hlt : k + 1 < r.length := by
        by_contra hcon
        rw [List.getElem?_eq_none (by omega)] at ht
        cases ht
      have hs : r[k]? = some r[k] := List.getElem?_eq_getElem (by omega)
      exact Relation.ReflTransGen.tail (ih _ hs) (hedge k _ t hs ht)
  refine ⟨hfirst, ?_, hedge, ?_⟩
  · intro k s hs
    obtain ⟨x, _, hsx, _⟩ := getActivePipeline_getElem?_succ nodes edges fuel r h k s hs
    rw [hsx]
    rfl
  · intro s hs
    obtain ⟨x, i, hx, hsx⟩ := mem_of_getActivePipeline nodes edges fuel r h s hs
    obtain ⟨k, hk⟩ := List.mem_iff_getElem?.1 hs
    exact ⟨⟨x, hx, by rw [hsx]; rfl⟩, hreach k s hk⟩

/-- Witness of claim C26: the chain "1", "2", "3". -/
theorem getActivePipeline_follows_edges_witness :
    getActivePipeline 3 chainNodes chainEdges = some (stepsFrom 1 chainNodes) ∧
    ((∀ s, (stepsFrom 1 chainNodes)[0]? = some s → s.id = "1") ∧
    (∀ (k : Nat) (s : Step), (stepsFrom 1 chainNodes)[k]? = some s → s.index = k + 1) ∧
    (∀ (k : Nat) (s t : Step), (stepsFrom 1 chainNodes)[k]? = some s →
      (stepsFrom 1 chainNodes)[k + 1]? = some t →
      ∃ e ∈ chainEdges, e.source = s.id ∧ e.target = t.id) ∧
    (∀ s ∈ stepsFrom 1 chainNodes, (∃ x ∈ chainNodes, x.id = s.id) ∧
      Relation.ReflTransGen (fun a b => ∃ e ∈ chainEdges, e.source = a ∧ e.target = b)
        "1" s.id)) :=
  ⟨rfl, getActivePipeline_follows_edges chainNodes chainEdges 3 (stepsFrom 1 chainNodes) rfl⟩

/-- Claim C27. Every step of a result is built from a node of the node list:
it has that node's id, type, position and label, the index given by the loop,
and the node's parameters filtered. The call is a function of the node list
and the edge list, which it only reads. -/
theorem getActivePipeline_step_frame (nodes : List Node) (edges : List Edge) (fuel : Nat)
    (r : List Step) (h : getActivePipeline fuel nodes edges = some r) :
    ∀ (k : Nat) (s : Step), r[k]? = some s →
      ∃ x ∈ nodes, s.id = x.id ∧ s.type = x.type ∧ s.position = x.position ∧
        s.data.label = x.data.label ∧ s.index = k + 1 ∧
        s.data.parameters = Parameters.record (filteredParameters x.data.parameters) := by
  intro k s hs
  obtain ⟨x, hx, hsx, _⟩ := getActivePipeline_getElem?_succ nodes edges fuel r h k s hs
  refine ⟨x, currentNode_mem nodes edges k x hx, ?_⟩
  rw [hsx]
  exact ⟨rfl, rfl, rfl, rfl, rfl, rfl⟩

/-- Witness of claim C27: the second step of the chain "1", "2", "3". -/
theorem getActivePipeline_step_frame_witness :
    getActivePipeline 3 chainNodes chainEdges = some (stepsFrom 1 chainNodes) ∧
    (stepsFrom 1 chainNodes)[1]? = some (mkStep (sampleNode "2" (Parameters.list [])) 2) ∧
    ∃ x ∈ chainNodes, (mkStep (sampleNode "2" (Parameters.list [])) 2).id = x.id ∧
      (mkStep (sampleNode "2" (Parameters.list [])) 2).type = x.type ∧
      (mkStep (sampleNode "2" (Parameters.list [])) 2).position = x.position ∧
      (mkStep (sampleNode "2" (Parameters.list [])) 2).data.label = x.data.label ∧
      (mkStep (sampleNode "2" (Parameters.list [])) 2).index = 1 + 1 ∧
      (mkStep (sampleNode "2" (Parameters.list [])) 2).data.parameters =
        Parameters.record (filteredParameters x.data.parameters) :=
  ⟨rfl, rfl, getActivePipeline_step_frame chainNodes chainEdges 3 (stepsFrom 1 chainNodes) rfl 1
    (mkStep (sampleNode "2" (Parameters.list [])) 2) rfl⟩

/-! ## Claims on navigation, token refresh and the project list -/

/-- The other five targets of the two buttons match a route of `App`. -/
theorem navigation_targets_matched :
    (["metabolomica", "citofluorimetria", "proteomica"].all fun field =>
      appRoutes.any fun r => matchPath r.path (handleClick field "7")) = true ∧
    (["metabolomica", "citofluorimetria"].all fun field =>
      appRoutes.any fun r => matchPath r.path (handleViewPipelineClick field "7")) = true := by
  decide

/-- A location with an empty segment matches no route, and trailing slashes
are ignored. -/
theorem matchPath_segments :
    matchPath "/project/:progressive_id" "/project//diagram" = false ∧
    (appRoutes.any fun r => matchPath r.path "/project//diagram") = false ∧
    matchPath "/project/:progressive_id/diagram" "/project/7/diagram/" = true ∧
    matchPath "/user" "/User" = true := by
  decide

/-- Claim C28, evaluated where it fails: for the field "proteomica" and the
project id "7", "Monitor Pipelines" navigates to
`/project/7/proteomics/running_pipelines`, which matches the pattern of no
route of `App` (the proteomics dashboard is declared under
`/project/:projectId/proteomics/pipelines`). -/
theorem handleViewPipelineClick_unmatched :
    handleViewPipelineClick "proteomica" "7" = "/project/7/proteomics/running_pipelines" ∧
    (appRoutes.any fun r => matchPath r.path (handleViewPipelineClick "proteomica" "7")) = false ∧
    matchPath "/project/:projectId/proteomics/pipelines" "/project/7/proteomics/pipelines" = true := by
  decide

/-- On a first 401 followed by a successful refresh the interceptor of
`ApiRadiomics` empties both tokens, sends the browser to "/" and rejects. -/
theorem radiomicsInterceptor_refresh (refreshPost : String → Option String → Option String)
    (storage : LocalStorage) (accessToken : String)
    (h : refreshPost "refreshToken" storage.refresh_token = some accessToken) :
    radiomicsInterceptor refreshPost 401 false storage =
      { storage := { access_token := none, refresh_token := none }, redirect := some "/",
        retried := false } := by
  simp [radiomicsInterceptor, h]

/-- Claim C29, evaluated where it fails: a first 401 and a refresh request
that answers with the token "new". The interceptor of `ApiProteomics` stores
"new", keeps the refresh token, does not redirect and retries; the one of
`ApiRadiomics` ends with both tokens removed, a redirect to "/" and no retry. -/
theorem radiomicsInterceptor_differs :
    proteomicsInterceptor (fun _ _ => some "new") 401 false
        { access_token := some "old", refresh_token := some "r" } =
      { storage := { access_token := some "new", refresh_token := some "r" },
        redirect := none, retried := true } ∧
    radiomicsInterceptor (fun _ _ => some "new") 401 false
        { access_token := some "old", refresh_token := some "r" } =
      { storage := { access_token := none, refresh_token := none },
        redirect := some "/", retried := false } := by
  decide

/-- Claim C30, evaluated where it fails: of two projects with
`(id, progressive_id)` equal to `(10, 1)` and `(1, 2)`, the first is chosen in
the dialog and deleted on the backend; the list shown afterwards still holds
the deleted project and no longer holds the other one. -/
theorem handleDelete_filters_by_id :
    sampleProjects.head? = some { id := some 10, progressive_id := 1, name := "a" } ∧
    confirmDelete sampleProjects sampleProjects.head? true =
      [{ id := some 10, progressive_id := 1, name := "a" }] := by
  decide

/-- When every project has an `id` equal to its `progressive_id`, and these
are pairwise distinct, a successful delete removes the chosen project and
keeps the others in order. -/
theorem handleDelete_of_id_eq (projects : List Project) (chosen : Project)
    (hid : ∀ p ∈ projects, p.id = some p.progressive_id) :
    confirmDelete projects (some chosen) true =
      projects.filter (fun p => p.progressive_id != chosen.progressive_id) := by
  unfold confirmDelete handleDelete
  simp only [Option.map_some', if_true]
  apply List.filter_congr
  intro p hp
  rw [hid p hp]
  by_cases h : p.progressive_id = chosen.progressive_id
  · simp [h]
  · have h1 : (some p.progressive_id != some chosen.progressive_id) = true := by
      simpa [bne_iff_ne] using h
    have h2 : (p.progressive_id != chosen.progressive_id) = true := by
      simpa [bne_iff_ne] using h
    rw [h1, h2]

end OMNIS
